import Mathlib

/-!
slibs.h: growable sequence, text sequence, formatting and counted pointer.

A shallow embedding of the macros of `slibs.h`.  Every macro that mutates its
argument in place becomes a function from the old structure to the new one.
Behaviour that C leaves undefined (a store or load outside the allocated
block, signed overflow) is an explicit failure of the embedded function.
-/

namespace Slibs

/-! ## Platform: `size_t`, `sizeof`, heap blocks, `realloc` -/

/-- Largest value of `size_t` on the 64-bit target (`<stdint.h>`). -/
def SIZE_MAX : Nat := 18446744073709551615

/-- Reduction of an arithmetic result to `size_t`: unsigned arithmetic wraps
modulo `SIZE_MAX + 1`. -/
def size_t (n : Nat) : Nat := n % (SIZE_MAX + 1)

/-- Element types of a sequence: `sizeof(T)` is a positive number of bytes. -/
class CType (α : Type) where
  sizeof : Nat
  sizeof_pos : 0 < sizeof

/-- The C type `char`: one byte. -/
abbrev char := Fin 256

instance : CType char := ⟨1, Nat.one_pos⟩

/-- The C type `int32_t`, used as a four-byte element type. -/
structure int32_t where
  val : Int
deriving DecidableEq

instance : CType int32_t := ⟨4, by decide⟩

/-- The object a `data` pointer points to: `slots` elements of storage.
`mem i` is the value stored in slot `i`, `none` while the slot is
uninitialised.  The null pointer is the block with no slots. -/
structure Block (α : Type) where
  slots : Nat
  mem : Nat → Option α

/-- The null pointer. -/
def NULL {α : Type} : Block α := ⟨0, fun _ => none⟩

/-- Store `p[i] = x`; undefined (`none`) outside the block. -/
def Block.write {α : Type} (p : Block α) (i : Nat) (x : α) : Option (Block α) :=
  if i < p.slots then some { p with mem := fun j => if j = i then some x else p.mem j }
  else none

/-- Load `p[i]`; undefined (`none`) outside the block or from an
uninitialised slot. -/
def Block.read {α : Type} (p : Block α) (i : Nat) : Option α :=
  if i < p.slots then p.mem i else none

/-- Library call `realloc(ptr, bytes)`.  `ok` is the allocator's answer: when
it is `false` the call returns the null pointer (`none`) and the old block is
untouched; when it is `true` the result is a block of `bytes` bytes, that is
`bytes / sizeof(T)` whole slots, holding the old contents up to the smaller of
the two sizes and uninitialised above. -/
def realloc {α : Type} [CType α] (ok : Bool) (ptr : Block α) (bytes : Nat) :
    Option (Block α) :=
  if ok then
    some { slots := bytes / CType.sizeof α
           mem := fun i =>
             if i < ptr.slots ∧ i < bytes / CType.sizeof α then ptr.mem i else none }
  else none

/-- Library call `memmove(p + 1, p, bytes)`: the first `bytes / sizeof(T)`
elements move one slot to the right, overlap handled as `memmove` does (every
source slot is read before it is overwritten).  Undefined when a moved element
would land outside the block.  A byte count that is not a multiple of the
element size (possible only after `size * sizeof` wrapped) is rounded down to
whole elements. -/
def memmove_right {α : Type} [CType α] (p : Block α) (bytes : Nat) : Option (Block α) :=
  let n := bytes / CType.sizeof α
  if n = 0 ∨ n < p.slots then
    some { p with mem := fun j => if 1 ≤ j ∧ j ≤ n then p.mem (j - 1) else p.mem j }
  else none

/-! ## Vector -/

/-- The struct of `sl_vec(type)`. -/
structure sl_vec (α : Type) where
  data : Block α
  size : Nat
  capacity : Nat

/-- The initialiser `{0}`: null `data`, `size = 0`, `capacity = 0`. -/
def sl_vec.zero {α : Type} : sl_vec α := ⟨NULL, 0, 0⟩

/-- Macro `sl_vec_grow(vec)`: the capacity is overwritten first, then the
block is reallocated to `capacity * sizeof(*data)` bytes, and `data` is
replaced only when `realloc` returned non-null. -/
def sl_vec_grow {α : Type} [CType α] (ok : Bool) (vec : sl_vec α) : sl_vec α :=
  let capacity := size_t (vec.capacity * 2 + 1)
  match realloc ok vec.data (size_t (capacity * CType.sizeof α)) with
  | some ptr => { vec with capacity := capacity, data := ptr }
  | none => { vec with capacity := capacity }

/-- Macro `sl_vec_push(vec, element)`. `ok` answers the `realloc` call made
when the sequence grows. -/
def sl_vec_push {α : Type} [CType α] (ok : Bool) (vec : sl_vec α) (element : α) :
    Option (sl_vec α) :=
  let vec := if vec.size ≥ vec.capacity then sl_vec_grow ok vec else vec
  (vec.data.write vec.size element).map fun d =>
    { vec with data := d, size := size_t (vec.size + 1) }

/-- Macro `sl_vec_shift(vec, element)`. -/
def sl_vec_shift {α : Type} [CType α] (ok : Bool) (vec : sl_vec α) (element : α) :
    Option (sl_vec α) :=
  let vec := if vec.size ≥ vec.capacity then sl_vec_grow ok vec else vec
  (memmove_right vec.data (size_t (vec.size * CType.sizeof α))).bind fun d =>
    (d.write 0 element).map fun d =>
      { vec with data := d, size := size_t (vec.size + 1) }

/-- Macro `sl_vec_pop(vec)`. -/
def sl_vec_pop {α : Type} (vec : sl_vec α) : sl_vec α :=
  if vec.size > 0 then { vec with size := vec.size - 1 } else vec

/-- Macro `sl_vec_at(vec, index)`: `data[index]`, with no bounds check. -/
def sl_vec_at {α : Type} (vec : sl_vec α) (index : Nat) : Option α :=
  vec.data.read index

/-- Macro `sl_vec_size(vec)`. -/
def sl_vec_size {α : Type} (vec : sl_vec α) : Nat := vec.size

/-- Macro `sl_vec_capacity(vec)`. -/
def sl_vec_capacity {α : Type} (vec : sl_vec α) : Nat := vec.capacity

/-- Macro `sl_vec_begin(vec)`: the pointer `data`, as an offset into the block. -/
def sl_vec_begin {α : Type} (_vec : sl_vec α) : Nat := 0

/-- Macro `sl_vec_end(vec)`: the pointer `data + size`, as an offset into the
block. -/
def sl_vec_end {α : Type} (vec : sl_vec α) : Nat := 0 + vec.size

/-- The loop `for (sl_vec_it(name, vec)) body`, with the body collecting
`*name`: `name` starts at `sl_vec_begin`, the loop runs while
`name != sl_vec_end`, and `++name` follows each round.  `fuel` bounds the
number of rounds; `none` is an undefined load or exhausted fuel. -/
def sl_vec_it_loop {α : Type} (vec : sl_vec α) : Nat → Nat → Option (List α)
  | 0, _ => none
  | fuel + 1, name =>
    if name ≠ sl_vec_end vec then
      (vec.data.read name).bind fun x =>
        (sl_vec_it_loop vec fuel (name + 1)).map fun xs => x :: xs
    else some []

/-- The elements visited by `for (sl_vec_it(name, vec))`. -/
def sl_vec_it {α : Type} (vec : sl_vec α) : Option (List α) :=
  sl_vec_it_loop vec (vec.size + 1) (sl_vec_begin vec)

/-- The slots `data[0 .. size)`: the logical contents of the sequence. -/
def sl_vec.contents {α : Type} (vec : sl_vec α) : List (Option α) :=
  (List.range vec.size).map vec.data.mem

/-- A caller that appends the elements of `xs` one after the other, every
reallocation answered by `ok`. -/
def push_all {α : Type} [CType α] (ok : Bool) : sl_vec α → List α → Option (sl_vec α)
  | vec, [] => some vec
  | vec, x :: xs => (sl_vec_push ok vec x).bind fun vec => push_all ok vec xs

/-- A caller that prepends the elements of `xs` one after the other, every
reallocation answered by `ok`. -/
def shift_all {α : Type} [CType α] (ok : Bool) : sl_vec α → List α → Option (sl_vec α)
  | vec, [] => some vec
  | vec, x :: xs => (sl_vec_shift ok vec x).bind fun vec => shift_all ok vec xs

/-- The sizes at which the appends of a run enter `sl_vec_grow`, in order: an
append is a growth event when it finds `size >= capacity`.  The list stops
where an append is undefined. -/
def growth_events {α : Type} [CType α] (ok : Bool) : sl_vec α → List α → List Nat
  | _, [] => []
  | vec, x :: xs =>
    (if vec.size ≥ vec.capacity then [vec.size] else []) ++
      match sl_vec_push ok vec x with
      | some vec => growth_events ok vec xs
      | none => []

/-- The statements a caller can apply to a sequence. -/
inductive VecOp (α : Type) where
  | push (ok : Bool) (element : α)
  | shift (ok : Bool) (element : α)
  | pop
  | c_str (ok : Bool)

/-- The answer the statement gives to its reallocation, if it makes one. -/
def VecOp.allocates {α : Type} : VecOp α → Bool
  | .push ok _ => ok
  | .shift ok _ => ok
  | .pop => true
  | .c_str ok => ok

/-- A well-formed sequence: `size ≤ capacity`, the block holds at least
`capacity` slots, and those `capacity` slots take at most `SIZE_MAX` bytes. -/
def sl_vec.valid {α : Type} [CType α] (vec : sl_vec α) : Prop :=
  vec.size ≤ vec.capacity ∧ vec.capacity ≤ vec.data.slots ∧
    vec.capacity * CType.sizeof α ≤ SIZE_MAX

/-! ## String -/

/-- The type `sl_string`: `typedef sl_vec(char) sl_string`. -/
abbrev sl_string := sl_vec char

/-- Library call `strlen(c_str)` on the bytes found from `c_str` on: the
number of bytes before the first NUL.  Reading past the end of the object
without meeting a NUL is undefined. -/
def strlen : List char → Option Nat
  | [] => none
  | c :: cs => if c = 0 then some 0 else (strlen cs).map fun n => n + 1

/-- The loop of `sl_string(c_str)`:
`for (size_t i = 0; i < strlen(c_str); i++) sl_vec_push(str, c_str[i])`,
entered with the current `i` and `str`.  `fuel` bounds the number of rounds. -/
def sl_string_loop (ok : Bool) (c_str : List char) : Nat → Nat → sl_string → Option sl_string
  | 0, _, _ => none
  | fuel + 1, i, str =>
    (strlen c_str).bind fun n =>
      if i < n then
        (c_str.get? i).bind fun c =>
          (sl_vec_push ok str c).bind fun str =>
            sl_string_loop ok c_str fuel (size_t (i + 1)) str
      else some str

/-- Macro `sl_string(c_str)`: start from `{0}` and append the bytes of the C
string one by one. -/
def sl_string_of (fuel : Nat) (ok : Bool) (c_str : List char) : Option sl_string :=
  sl_string_loop ok c_str fuel 0 sl_vec.zero

/-- Macro `sl_c_str(str)`: push the terminator, then `size--`.  The value of
the statement expression is the `data` of the returned structure. -/
def sl_c_str {α : Type} [CType α] [Zero α] (ok : Bool) (str : sl_vec α) : Option (sl_vec α) :=
  (sl_vec_push ok str 0).map fun str => { str with size := size_t (str.size + SIZE_MAX) }

/-- One statement applied to a sequence. -/
def VecOp.apply {α : Type} [CType α] [Zero α] : VecOp α → sl_vec α → Option (sl_vec α)
  | .push ok element, vec => sl_vec_push ok vec element
  | .shift ok element, vec => sl_vec_shift ok vec element
  | .pop, vec => some (sl_vec_pop vec)
  | .c_str ok, vec => sl_c_str ok vec

/-- A straight-line program of sequence statements. -/
def run_ops {α : Type} [CType α] [Zero α] : sl_vec α → List (VecOp α) → Option (sl_vec α)
  | vec, [] => some vec
  | vec, op :: ops => (op.apply vec).bind fun vec => run_ops vec ops

/-- Whether the statement reaches `sl_vec_grow` from this state. -/
def VecOp.grows {α : Type} : VecOp α → sl_vec α → Bool
  | .pop, _ => false
  | _, vec => decide (vec.size ≥ vec.capacity)

/-- No `size_t` result of the statement wraps: when it grows, the new capacity
and the byte count passed to `realloc` are at most `SIZE_MAX`. -/
def VecOp.fits {α : Type} [CType α] (op : VecOp α) (vec : sl_vec α) : Bool :=
  !op.grows vec || decide ((vec.capacity * 2 + 1) * CType.sizeof α ≤ SIZE_MAX)

/-- No statement of the program wraps a `size_t`. -/
def run_fits {α : Type} [CType α] [Zero α] : sl_vec α → List (VecOp α) → Bool
  | _, [] => true
  | vec, op :: ops =>
    op.fits vec &&
      match op.apply vec with
      | some vec => run_fits vec ops
      | none => true

/-! ## Pointers -/

/-- Largest value of `int` (`<limits.h>`, 32-bit `int`). -/
def INT_MAX : Int := 2147483647

/-- Smallest value of `int`. -/
def INT_MIN : Int := -2147483648

/-- The struct of `sl_ptr(type)`; `ptr` is the address held. -/
structure sl_ptr where
  ptr : Nat
  ref_count : Int
deriving DecidableEq

/-- Program state around one counted pointer: the structure itself and the
addresses passed to `free` so far, oldest first. -/
structure PtrState where
  smart_ptr : sl_ptr
  freed : List Nat
deriving DecidableEq

/-- How a statement ends: normally, in a failed `assert` (the process
aborts; assertions are compiled in), or in undefined behaviour (overflow of
the signed counter). -/
inductive Outcome (σ : Type) where
  | ok (s : σ)
  | assertion_failed
  | undefined
deriving DecidableEq

/-- Macro `sl_ptr_make(raw_ptr)`: the initialiser `{ raw_ptr, 1 }`. -/
def sl_ptr_make (raw_ptr : Nat) : sl_ptr := { ptr := raw_ptr, ref_count := 1 }

/-- Macro `sl_ptr_release(smart_ptr)`: `ref_count--`, then `free(ptr)` when
the count is `<= 0`. -/
def sl_ptr_release (st : PtrState) : Outcome PtrState :=
  if st.smart_ptr.ref_count = INT_MIN then .undefined
  else
    let st := { st with smart_ptr := { st.smart_ptr with ref_count := st.smart_ptr.ref_count - 1 } }
    if st.smart_ptr.ref_count ≤ 0 then
      .ok { st with freed := st.freed ++ [st.smart_ptr.ptr] }
    else .ok st

/-- Macro `sl_ptr_get(smart_ptr, raw_ptr_name, scope)`.  `scope` is the
caller's block: it receives the raw pointer bound to `raw_ptr_name` and acts
on the program state. -/
def sl_ptr_get (st : PtrState) (scope : Nat → PtrState → Outcome PtrState) :
    Outcome PtrState :=
  if st.smart_ptr.ref_count > 0 then
    let raw_ptr_name := st.smart_ptr.ptr
    if st.smart_ptr.ref_count = INT_MAX then .undefined
    else
      let st := { st with smart_ptr := { st.smart_ptr with ref_count := st.smart_ptr.ref_count + 1 } }
      match scope raw_ptr_name st with
      | .ok st => sl_ptr_release st
      | .assertion_failed => .assertion_failed
      | .undefined => .undefined
  else .assertion_failed

/-- Macro `sl_ptr_scope(smart_ptr, scope)`: run the block, then release. -/
def sl_ptr_scope (st : PtrState) (scope : PtrState → Outcome PtrState) : Outcome PtrState :=
  match scope st with
  | .ok st => sl_ptr_release st
  | .assertion_failed => .assertion_failed
  | .undefined => .undefined

/-- The statements a holder can apply to a counted pointer. -/
inductive PtrOp where
  | release
  | get (body : Nat → PtrState → Outcome PtrState)
  | scope (body : PtrState → Outcome PtrState)

/-- One statement applied to the program state. -/
def PtrOp.apply : PtrOp → PtrState → Outcome PtrState
  | .release, st => sl_ptr_release st
  | .get body, st => sl_ptr_get st body
  | .scope body, st => sl_ptr_scope st body

/-- A block that completes normally and leaves `ref_count` as it found it. -/
def count_neutral (scope : PtrState → Outcome PtrState) : Prop :=
  ∀ st, ∃ st', scope st = .ok st' ∧ st'.smart_ptr.ref_count = st.smart_ptr.ref_count

/-- A program of `n` borrows, the `k`-th one running the block `scopes k`. -/
def borrow_n (scopes : Nat → Nat → PtrState → Outcome PtrState) :
    Nat → PtrState → Outcome PtrState
  | 0, st => .ok st
  | n + 1, st =>
    match borrow_n scopes n st with
    | .ok st => sl_ptr_get st (scopes n)
    | .assertion_failed => .assertion_failed
    | .undefined => .undefined

/-- Programs over one counted pointer built from `sl_ptr_release` and
`sl_ptr_get`, where the block of a `sl_ptr_get` is again such a program. -/
inductive PtrStmt where
  | skip
  | release
  | get (body : PtrStmt)
  | seq (first second : PtrStmt)

/-- Execution of a pointer program; it stops at the first statement that does
not end normally. -/
def PtrStmt.run : PtrStmt → PtrState → Outcome PtrState
  | .skip, st => .ok st
  | .release, st => sl_ptr_release st
  | .get body, st => sl_ptr_get st fun _ s => body.run s
  | .seq first second, st =>
    match first.run st with
    | .ok st => second.run st
    | .assertion_failed => .assertion_failed
    | .undefined => .undefined

/-- The wrapped value has been freed exactly when the count is `<= 0`. -/
def freed_iff_dead (st : PtrState) : Prop :=
  st.smart_ptr.ptr ∈ st.freed ↔ st.smart_ptr.ref_count ≤ 0

/-! ## Formatting -/

/-- The controlling types of the `_Generic` selection in `sl_fmt_spec`;
`other` stands for every type without an association. -/
inductive CTypeName where
  | int8_t | int16_t | int32_t | int64_t
  | uint8_t | uint16_t | uint32_t | uint64_t
  | double | float | char | char_ptr | void_ptr | other
deriving DecidableEq

/-- Macro `sl_fmt_spec(arg)`: the format string associated with the type of
`arg`. -/
def sl_fmt_spec : CTypeName → String
  | .int8_t => "%d"
  | .int16_t => "%d"
  | .int32_t => "%d"
  | .int64_t => "%lld"
  | .uint8_t => "%u"
  | .uint16_t => "%u"
  | .uint32_t => "%lu"
  | .uint64_t => "%llu"
  | .double => "%lf"
  | .float => "%f"
  | .char => "%c"
  | .char_ptr => "%s"
  | .void_ptr => "%p"
  | .other => "Unknown"

/-- The values handed to `sl_tostring` here: an `int32_t`, a `uint32_t` or a
`char`, each with the value it holds. -/
inductive CValue where
  | int32 (v : Int)
  | uint32 (v : Nat)
  | chr (c : char)

/-- The type `_Generic` sees for the value. -/
def CValue.type : CValue → CTypeName
  | .int32 _ => .int32_t
  | .uint32 _ => .uint32_t
  | .chr _ => .char

/-- An argument as a variadic function receives it, with the type it has after
the default argument promotions (`int` is 32 bits, `long` is 64 bits). -/
inductive VaArg where
  | int (v : Int)
  | unsigned_int (v : Nat)
  | unsigned_long (v : Nat)

/-- Default argument promotions: `int32_t` is `int`, `uint32_t` is
`unsigned int`, and a `char` is promoted to `int`. -/
def CValue.promote : CValue → VaArg
  | .int32 v => .int v
  | .uint32 v => .unsigned_int v
  | .chr c => .int c.val

/-- The character of the decimal digit `d`. -/
def digit_char (d : Nat) : char := ⟨48 + d % 10, by omega⟩

/-- Decimal digits of `n`, most significant first, by repeated division;
`fuel` bounds the number of digits. -/
def decimal_digits : Nat → Nat → List char
  | 0, _ => []
  | fuel + 1, n =>
    if n < 10 then [digit_char n]
    else decimal_digits fuel (n / 10) ++ [digit_char (n % 10)]

/-- The output of an unsigned decimal conversion: the digits of `n`, no sign,
no padding. -/
def decimal (n : Nat) : List char := decimal_digits (n + 1) n

/-- The output of `%d`: `-` and the digits of the magnitude for a negative
value, the digits alone otherwise. -/
def decimal_int (v : Int) : List char :=
  if v < 0 then 45 :: decimal (-v).toNat else decimal v.toNat

/-- The characters `printf`-style formatting produces for the format strings
of `sl_fmt_spec` that take an integer or character argument, applied to one
argument.  `none` marks a call that C leaves undefined because the argument
does not have the type the conversion expects (`%lu` expects an
`unsigned long`), and the conversions for floating point, strings and
pointers, which are not covered. -/
def format (fmt : String) (arg : VaArg) : Option (List char) :=
  if fmt = "%d" then
    match arg with
    | .int v => some (decimal_int v)
    | _ => none
  else if fmt = "%u" then
    match arg with
    | .unsigned_int v => some (decimal v)
    | _ => none
  else if fmt = "%lu" then
    match arg with
    | .unsigned_long v => some (decimal v)
    | _ => none
  else if fmt = "%c" then
    match arg with
    | .int v => some [⟨(v % 256).toNat % 256, Nat.mod_lt _ (by decide)⟩]
    | _ => none
  else none

/-- Library call `snprintf(NULL, 0, fmt, arg)`: the number of characters the
formatted output has. -/
def snprintf_count (fmt : String) (arg : VaArg) : Option Int :=
  (format fmt arg).map fun cs => (cs.length : Int)

/-- Library call `snprintf(buf, n, fmt, arg)` with `n > 0`: the bytes of `buf`
afterwards, at most `n - 1` characters of the output followed by the
terminator. -/
def snprintf_into (n : Nat) (fmt : String) (arg : VaArg) : Option (List char) :=
  (format fmt arg).map fun cs => cs.take (n - 1) ++ [0]

/-- Macro `sl_tostring(val)`: measure the output, `malloc` a buffer of that
length plus one, format into it, copy it with `sl_string`, free it.  `ok`
answers every allocation; a failed `malloc` makes `snprintf` write through the
null pointer. -/
def sl_tostring (fuel : Nat) (ok : Bool) (val : CValue) : Option sl_string :=
  (snprintf_count (sl_fmt_spec val.type) val.promote).bind fun count =>
    if count ≥ INT_MAX then none
    else
      let len := count + 1
      if ok then
        (snprintf_into len.toNat (sl_fmt_spec val.type) val.promote).bind fun buf =>
          sl_string_of fuel ok buf
      else none

/-- A text sequence that is full at `2 ^ 63` characters: its block has
`2 ^ 63` one-byte slots, all in use. -/
def wide_text : sl_string :=
  { data := { slots := 9223372036854775808, mem := fun _ => some 0 }
    size := 9223372036854775808
    capacity := 9223372036854775808 }

/-- The text `hi` in a block of three slots: `size = 2`, `capacity = 3`. -/
def sample_text : sl_string :=
  { data := { slots := 3, mem := fun i => if i = 0 then some 104 else if i = 1 then some 105 else none }
    size := 2
    capacity := 3 }

/-! ## Arithmetic of `size_t` -/

theorem size_t_of_le {n : Nat} (h : n ≤ SIZE_MAX) : size_t n = n :=
  Nat.mod_eq_of_lt (Nat.lt_succ_of_le h)

theorem size_t_le (n : Nat) : size_t n ≤ n := Nat.mod_le _ _

theorem le_mul_sizeof (α : Type) [CType α] (n : Nat) : n ≤ n * CType.sizeof α :=
  Nat.le_mul_of_pos_right n CType.sizeof_pos

/-! ## Growth and append when the reallocation succeeds and nothing wraps -/

/-- The structure left by a successful, non-wrapping `sl_vec_grow`. -/
theorem sl_vec_grow_ok {α : Type} [CType α] (vec : sl_vec α)
    (hfit : (vec.capacity * 2 + 1) * CType.sizeof α ≤ SIZE_MAX) :
    sl_vec_grow true vec =
      { data := { slots := vec.capacity * 2 + 1
                  mem := fun i =>
                    if i < vec.data.slots ∧ i < vec.capacity * 2 + 1 then vec.data.mem i
                    else none }
        size := vec.size
        capacity := vec.capacity * 2 + 1 } := by
  have h1 : vec.capacity * 2 + 1 ≤ SIZE_MAX := le_trans (le_mul_sizeof α _) hfit
  have h2 : (vec.capacity * 2 + 1) * CType.sizeof α / CType.sizeof α = vec.capacity * 2 + 1 :=
    Nat.mul_div_cancel _ CType.sizeof_pos
  simp only [sl_vec_grow, realloc, size_t_of_le h1, size_t_of_le hfit, h2, if_true]

/-- Append into a full sequence: the result of `sl_vec_push`, written out. -/
theorem sl_vec_push_full {α : Type} [CType α] (vec : sl_vec α) (v : α)
    (hg : vec.size = vec.capacity)
    (hfit : (vec.capacity * 2 + 1) * CType.sizeof α ≤ SIZE_MAX) :
    sl_vec_push true vec v = some
      { data := { slots := vec.capacity * 2 + 1
                  mem := fun j =>
                    if j = vec.size then some v
                    else if j < vec.data.slots ∧ j < vec.capacity * 2 + 1 then vec.data.mem j
                    else none }
        size := vec.size + 1
        capacity := vec.capacity * 2 + 1 } := by
  have hge : vec.size ≥ vec.capacity := by omega
  have h1 : vec.capacity * 2 + 1 ≤ SIZE_MAX := le_trans (le_mul_sizeof α _) hfit
  have hs : vec.size + 1 ≤ SIZE_MAX := by omega
  have hw : vec.size < vec.capacity * 2 + 1 := by omega
  simp only [sl_vec_push, if_pos hge, sl_vec_grow_ok vec hfit, Block.write, if_pos hw,
    Option.map_some', size_t_of_le hs]

/-- Append into a sequence with a free slot: no reallocation is attempted. -/
theorem sl_vec_push_room {α : Type} [CType α] (ok : Bool) (vec : sl_vec α) (v : α)
    (hlt : vec.size < vec.capacity) (hbuf : vec.capacity ≤ vec.data.slots)
    (hcap : vec.capacity ≤ SIZE_MAX) :
    sl_vec_push ok vec v = some
      { data := { slots := vec.data.slots
                  mem := fun j => if j = vec.size then some v else vec.data.mem j }
        size := vec.size + 1
        capacity := vec.capacity } := by
  have hge : ¬ vec.size ≥ vec.capacity := by omega
  have hs : vec.size + 1 ≤ SIZE_MAX := by omega
  have hw : vec.size < vec.data.slots := by omega
  simp only [sl_vec_push, if_neg hge, Block.write, if_pos hw, Option.map_some',
    size_t_of_le hs]

/-- What a successful, non-wrapping `sl_vec_push` leaves behind. -/
theorem sl_vec_push_spec {α : Type} [CType α] (vec : sl_vec α) (v : α)
    (hsize : vec.size ≤ vec.capacity) (hbuf : vec.capacity ≤ vec.data.slots)
    (hcap : vec.capacity ≤ SIZE_MAX)
    (hfit : vec.size = vec.capacity → (vec.capacity * 2 + 1) * CType.sizeof α ≤ SIZE_MAX) :
    ∃ vec', sl_vec_push true vec v = some vec' ∧
      vec'.size = vec.size + 1 ∧
      vec'.capacity = (if vec.size = vec.capacity then vec.capacity * 2 + 1 else vec.capacity) ∧
      vec'.data.slots =
        (if vec.size = vec.capacity then vec.capacity * 2 + 1 else vec.data.slots) ∧
      vec'.data.mem vec.size = some v ∧
      ∀ i, i < vec.capacity → i ≠ vec.size → vec'.data.mem i = vec.data.mem i := by
  by_cases hg : vec.size = vec.capacity
  · refine ⟨_, sl_vec_push_full vec v hg (hfit hg), rfl, by simp [hg], by simp [hg], by simp, ?_⟩
    intro i hi hne
    have : i < vec.data.slots ∧ i < vec.capacity * 2 + 1 := ⟨by omega, by omega⟩
    simp [hne, this]
  · refine ⟨_, sl_vec_push_room true vec v (by omega) hbuf hcap, rfl, by simp [hg], by simp [hg],
      by simp, ?_⟩
    intro i _ hne
    simp [hne]

/-! ## Runs of appends -/

theorem push_all_append {α : Type} [CType α] (ok : Bool) (vec : sl_vec α) (xs ys : List α) :
    push_all ok vec (xs ++ ys) = (push_all ok vec xs).bind fun vec => push_all ok vec ys := by
  induction xs generalizing vec with
  | nil => simp [push_all]
  | cons x xs ih =>
    simp only [List.cons_append, push_all]
    cases sl_vec_push ok vec x with
    | none => simp
    | some w => simpa using ih w

/-- The bit length of `n + 1` after a step that does or does not reach a power
of two. -/
theorem size_succ_of_eq {n : Nat} (h : n = 2 ^ Nat.size n - 1) :
    Nat.size (n + 1) = Nat.size n + 1 := by
  have hpos : 0 < 2 ^ Nat.size n := Nat.pos_pow_of_pos _ (by decide)
  have : n + 1 = 2 ^ Nat.size n := by omega
  rw [this, Nat.size_pow]

theorem size_succ_of_lt {n : Nat} (h : n < 2 ^ Nat.size n - 1) :
    Nat.size (n + 1) = Nat.size n := by
  apply le_antisymm
  · exact Nat.size_le.2 (by omega)
  · exact Nat.size_le_size (Nat.le_succ n)

/-- State of the sequence after the first `n` appends of a run from `{0}`. -/
theorem push_all_prefix {α : Type} [CType α] (xs : List α) (K : Nat)
    (hK : xs.length ≤ 2 ^ K - 1) (hfit : (2 ^ K - 1) * CType.sizeof α ≤ SIZE_MAX) (n : Nat)
    (hn : n ≤ xs.length) :
    ∃ vec, push_all true sl_vec.zero (xs.take n) = some vec ∧ vec.size = n ∧
      vec.capacity = 2 ^ Nat.size n - 1 ∧ vec.data.slots = vec.capacity := by
  induction n with
  | zero => exact ⟨sl_vec.zero, by simp [push_all], rfl, by simp [sl_vec.zero], rfl⟩
  | succ n ih =>
    obtain ⟨vec, hrun, hsz, hcap, hslots⟩ := ih (by omega)
    have hlt : n < xs.length := by omega
    have htake : xs.take (n + 1) = xs.take n ++ [xs.get ⟨n, hlt⟩] := by
      rw [List.take_succ, List.getElem?_eq_getElem hlt]; rfl
    have hKpos : 0 < 2 ^ K := Nat.pos_pow_of_pos _ (by decide)
    have hspos : 0 < 2 ^ Nat.size n := Nat.pos_pow_of_pos _ (by decide)
    have hself : n < 2 ^ Nat.size n := Nat.lt_size_self n
    have hsK : Nat.size (n + 1) ≤ K := Nat.size_le.2 (by omega)
    have hpow : 2 ^ Nat.size (n + 1) ≤ 2 ^ K := Nat.pow_le_pow_right (by decide) hsK
    have hbound : ∀ c, c ≤ 2 ^ Nat.size (n + 1) - 1 → c * CType.sizeof α ≤ SIZE_MAX := by
      intro c hc
      exact le_trans (Nat.mul_le_mul_right _ (by omega)) hfit
    have hmono : 2 ^ Nat.size n ≤ 2 ^ Nat.size (n + 1) :=
      Nat.pow_le_pow_right (by decide) (Nat.size_le_size (Nat.le_succ n))
    have hcapmax : vec.capacity ≤ SIZE_MAX := by
      have := hbound vec.capacity (by omega)
      exact le_trans (le_mul_sizeof α _) this
    have hrun' : push_all true sl_vec.zero (xs.take (n + 1)) =
        sl_vec_push true vec (xs.get ⟨n, hlt⟩) := by
      rw [htake, push_all_append, hrun]
      simp [push_all]
    by_cases hg : vec.size = vec.capacity
    · have hsucc := @size_succ_of_eq n (by omega)
      have hnew : vec.capacity * 2 + 1 = 2 ^ Nat.size (n + 1) - 1 := by
        rw [hsucc, pow_succ]; omega
      have hpush := sl_vec_push_full vec (xs.get ⟨n, hlt⟩) hg (hbound _ (by omega))
      rw [hpush] at hrun'
      exact ⟨_, hrun', by simp [hsz], by simpa using hnew, rfl⟩
    · have hsucc := @size_succ_of_lt n (by omega)
      have hpush := sl_vec_push_room true vec (xs.get ⟨n, hlt⟩) (by omega) (by omega) hcapmax
      rw [hpush] at hrun'
      exact ⟨_, hrun', by simp [hsz], by simp [hsucc, hcap], by simpa using hslots⟩

/-! ## Growth formula -/

/-- C1. Growth formula.  Take a run of appends from the empty sequence `{0}`,
every reallocation succeeding, that stays within `size_t`: some `K` has
`N ≤ 2 ^ K - 1` with `(2 ^ K - 1) * sizeof(T) ≤ SIZE_MAX`.  Then after the
first `n` appends the run has produced a sequence with `size = n` and
`capacity = 2 ^ k - 1` for the least `k` with `n ≤ 2 ^ k - 1`, and the next
append, when there is one, sets the capacity to `capacity * 2 + 1` if it is a
growth event (`size ≥ capacity` on entry) and leaves it alone otherwise. -/
theorem growth_formula {α : Type} [CType α] (xs : List α) (K : Nat)
    (hK : xs.length ≤ 2 ^ K - 1) (hfit : (2 ^ K - 1) * CType.sizeof α ≤ SIZE_MAX) :
    ∀ n, n ≤ xs.length →
      ∃ vec, push_all true sl_vec.zero (xs.take n) = some vec ∧
        vec.size = n ∧
        (∃ k, vec.capacity = 2 ^ k - 1 ∧ n ≤ 2 ^ k - 1 ∧ ∀ j, n ≤ 2 ^ j - 1 → k ≤ j) ∧
        (n < xs.length →
          ∃ vec', push_all true sl_vec.zero (xs.take (n + 1)) = some vec' ∧
            vec'.capacity =
              if vec.size ≥ vec.capacity then vec.capacity * 2 + 1 else vec.capacity) := by
  intro n hn
  obtain ⟨vec, hrun, hsz, hcap, hslots⟩ := push_all_prefix xs K hK hfit n hn
  have hself : n < 2 ^ Nat.size n := Nat.lt_size_self n
  refine ⟨vec, hrun, hsz, ⟨Nat.size n, hcap, by omega, ?_⟩, ?_⟩
  · intro j hj
    have hjpos : 0 < 2 ^ j := Nat.pos_pow_of_pos _ (by decide)
    exact Nat.size_le.2 (by omega)
  · intro hlt
    obtain ⟨vec', hrun', hsz', hcap', _⟩ := push_all_prefix xs K hK hfit (n + 1) hlt
    refine ⟨vec', hrun', ?_⟩
    by_cases hg : vec.size ≥ vec.capacity
    · rw [if_pos hg, hcap', hcap, @size_succ_of_eq n (by omega), pow_succ]
      omega
    · rw [if_neg hg, hcap', hcap, @size_succ_of_lt n (by omega)]

/-- Four appends of `char`s: sizes and capacities after 0, 1, 2, 3, 4 appends
are `(0,0) (1,1) (2,3) (3,3) (4,7)`. -/
theorem growth_formula_witness :
    ([1, 2, 3, 4] : List char).length ≤ 2 ^ 3 - 1 ∧
    (2 ^ 3 - 1) * CType.sizeof char ≤ SIZE_MAX ∧
    (List.range 5).map (fun n =>
      (push_all true sl_vec.zero (([1, 2, 3, 4] : List char).take n)).map
        fun vec => (vec.size, vec.capacity)) =
      [some (0, 0), some (1, 1), some (2, 3), some (3, 3), some (4, 7)] ∧
    ∀ n, n ≤ ([1, 2, 3, 4] : List char).length →
      ∃ vec, push_all true sl_vec.zero (([1, 2, 3, 4] : List char).take n) = some vec ∧
        vec.size = n ∧
        (∃ k, vec.capacity = 2 ^ k - 1 ∧ n ≤ 2 ^ k - 1 ∧ ∀ j, n ≤ 2 ^ j - 1 → k ≤ j) ∧
        (n < ([1, 2, 3, 4] : List char).length →
          ∃ vec', push_all true sl_vec.zero (([1, 2, 3, 4] : List char).take (n + 1)) =
              some vec' ∧
            vec'.capacity =
              if vec.size ≥ vec.capacity then vec.capacity * 2 + 1 else vec.capacity) :=
  ⟨by decide, by decide, by decide, growth_formula [1, 2, 3, 4] 3 (by decide) (by decide)⟩

/-! ## Append -/

/-- Prepend into a full sequence: the result of `sl_vec_shift`, written out. -/
theorem sl_vec_shift_full {α : Type} [CType α] (vec : sl_vec α) (v : α)
    (hg : vec.size = vec.capacity)
    (hfit : (vec.capacity * 2 + 1) * CType.sizeof α ≤ SIZE_MAX) :
    sl_vec_shift true vec v = some
      { data := { slots := vec.capacity * 2 + 1
                  mem := fun j =>
                    if j = 0 then some v
                    else if 1 ≤ j ∧ j ≤ vec.size then
                      (if j - 1 < vec.data.slots ∧ j - 1 < vec.capacity * 2 + 1
                        then vec.data.mem (j - 1) else none)
                    else if j < vec.data.slots ∧ j < vec.capacity * 2 + 1 then vec.data.mem j
                    else none }
        size := vec.size + 1
        capacity := vec.capacity * 2 + 1 } := by
  have hge : vec.size ≥ vec.capacity := by omega
  have h1 : vec.capacity * 2 + 1 ≤ SIZE_MAX := le_trans (le_mul_sizeof α _) hfit
  have hs : vec.size + 1 ≤ SIZE_MAX := by omega
  have hb : vec.size * CType.sizeof α ≤ SIZE_MAX :=
    le_trans (Nat.mul_le_mul_right _ (by omega)) hfit
  have hd : vec.size * CType.sizeof α / CType.sizeof α = vec.size :=
    Nat.mul_div_cancel _ CType.sizeof_pos
  have hm : vec.size = 0 ∨ vec.size < vec.capacity * 2 + 1 := Or.inr (by omega)
  have hw : 0 < vec.capacity * 2 + 1 := by omega
  simp only [sl_vec_shift, if_pos hge, sl_vec_grow_ok vec hfit, memmove_right, size_t_of_le hb,
    hd, if_pos hm, Option.some_bind, Block.write, if_pos hw, Option.map_some', size_t_of_le hs]

/-- Prepend into a sequence with a free slot: no reallocation is attempted. -/
theorem sl_vec_shift_room {α : Type} [CType α] (ok : Bool) (vec : sl_vec α) (v : α)
    (hlt : vec.size < vec.capacity) (hbuf : vec.capacity ≤ vec.data.slots)
    (hcap : vec.capacity * CType.sizeof α ≤ SIZE_MAX) :
    sl_vec_shift ok vec v = some
      { data := { slots := vec.data.slots
                  mem := fun j =>
                    if j = 0 then some v
                    else if 1 ≤ j ∧ j ≤ vec.size then vec.data.mem (j - 1)
                    else vec.data.mem j }
        size := vec.size + 1
        capacity := vec.capacity } := by
  have hge : ¬ vec.size ≥ vec.capacity := by omega
  have h1 : vec.capacity ≤ SIZE_MAX := le_trans (le_mul_sizeof α _) hcap
  have hs : vec.size + 1 ≤ SIZE_MAX := by omega
  have hb : vec.size * CType.sizeof α ≤ SIZE_MAX :=
    le_trans (Nat.mul_le_mul_right _ (by omega)) hcap
  have hd : vec.size * CType.sizeof α / CType.sizeof α = vec.size :=
    Nat.mul_div_cancel _ CType.sizeof_pos
  have hm : vec.size = 0 ∨ vec.size < vec.data.slots := Or.inr (by omega)
  have hw : 0 < vec.data.slots := by omega
  simp only [sl_vec_shift, if_neg hge, memmove_right, size_t_of_le hb,
    hd, if_pos hm, Option.some_bind, Block.write, if_pos hw, Option.map_some', size_t_of_le hs]

/-- What a successful, non-wrapping `sl_vec_shift` leaves behind. -/
theorem sl_vec_shift_spec {α : Type} [CType α] (vec : sl_vec α) (v : α)
    (hsize : vec.size ≤ vec.capacity) (hbuf : vec.capacity ≤ vec.data.slots)
    (hcap : vec.capacity * CType.sizeof α ≤ SIZE_MAX)
    (hfit : vec.size = vec.capacity → (vec.capacity * 2 + 1) * CType.sizeof α ≤ SIZE_MAX) :
    ∃ vec', sl_vec_shift true vec v = some vec' ∧
      vec'.size = vec.size + 1 ∧
      vec'.capacity = (if vec.size = vec.capacity then vec.capacity * 2 + 1 else vec.capacity) ∧
      vec'.data.slots =
        (if vec.size = vec.capacity then vec.capacity * 2 + 1 else vec.data.slots) ∧
      vec'.data.mem 0 = some v ∧
      ∀ i, i < vec.size → vec'.data.mem (i + 1) = vec.data.mem i := by
  by_cases hg : vec.size = vec.capacity
  · refine ⟨_, sl_vec_shift_full vec v hg (hfit hg), rfl, by simp [hg], by simp [hg], by simp, ?_⟩
    intro i hi
    have h1 : i + 1 ≤ vec.size := hi
    have h2 : i < vec.data.slots ∧ i < vec.capacity * 2 + 1 := ⟨by omega, by omega⟩
    simp [h1, h2]
  · refine ⟨_, sl_vec_shift_room true vec v (by omega) hbuf hcap, rfl, by simp [hg], by simp [hg],
      by simp, ?_⟩
    intro i hi
    have h1 : i + 1 ≤ vec.size := hi
    simp [h1]

theorem contents_cons {α : Type} (vec vec' : sl_vec α) (hsz : vec'.size = vec.size + 1)
    (hmove : ∀ i, i < vec.size → vec'.data.mem (i + 1) = vec.data.mem i) :
    vec'.contents = vec'.data.mem 0 :: vec.contents := by
  unfold sl_vec.contents
  rw [hsz, List.range_succ_eq_map, List.map_cons, List.map_map]
  congr 1
  apply List.map_congr_left
  intro i hi
  exact hmove i (List.mem_range.1 hi)

/-- Arithmetic of one insertion into a sequence of `n` elements whose capacity
is `2 ^ Nat.size n - 1`, inside a run bounded by `2 ^ K - 1` elements. -/
theorem growth_step {n c K sz : Nat} (hc : c = 2 ^ Nat.size n - 1) (hn : n + 1 ≤ 2 ^ K - 1)
    (hfit : (2 ^ K - 1) * sz ≤ SIZE_MAX) :
    n ≤ c ∧ c * sz ≤ SIZE_MAX ∧ (n = c → (c * 2 + 1) * sz ≤ SIZE_MAX) ∧
      (if n = c then c * 2 + 1 else c) = 2 ^ Nat.size (n + 1) - 1 := by
  have hKpos : 0 < 2 ^ K := Nat.pos_pow_of_pos _ (by decide)
  have hspos : 0 < 2 ^ Nat.size n := Nat.pos_pow_of_pos _ (by decide)
  have hself : n < 2 ^ Nat.size n := Nat.lt_size_self n
  have hsK : Nat.size (n + 1) ≤ K := Nat.size_le.2 (by omega)
  have hpow : 2 ^ Nat.size (n + 1) ≤ 2 ^ K := Nat.pow_le_pow_right (by decide) hsK
  have hmono : 2 ^ Nat.size n ≤ 2 ^ Nat.size (n + 1) :=
    Nat.pow_le_pow_right (by decide) (Nat.size_le_size (Nat.le_succ n))
  have hbound : ∀ d, d ≤ 2 ^ Nat.size (n + 1) - 1 → d * sz ≤ SIZE_MAX := by
    intro d hd
    exact le_trans (Nat.mul_le_mul_right _ (by omega)) hfit
  have hstep : (if n = c then c * 2 + 1 else c) = 2 ^ Nat.size (n + 1) - 1 := by
    by_cases hg : n = c
    · rw [if_pos hg, hc, @size_succ_of_eq n (by omega), pow_succ]
      omega
    · rw [if_neg hg, hc, @size_succ_of_lt n (by omega)]
  refine ⟨by omega, hbound c (by omega), ?_, hstep⟩
  intro hg
  rw [if_pos hg] at hstep
  exact hbound _ (by omega)

/-- A run of prepends from a sequence of `n` elements with capacity
`2 ^ Nat.size n - 1`. -/
theorem shift_all_run {α : Type} [CType α] (K : Nat)
    (hfit : (2 ^ K - 1) * CType.sizeof α ≤ SIZE_MAX) (xs : List α) :
    ∀ vec : sl_vec α, vec.capacity = 2 ^ Nat.size vec.size - 1 →
      vec.data.slots = vec.capacity → vec.size + xs.length ≤ 2 ^ K - 1 →
      ∃ vec', shift_all true vec xs = some vec' ∧
        vec'.size = vec.size + xs.length ∧
        vec'.contents = (xs.reverse.map some) ++ vec.contents := by
  induction xs with
  | nil => intro vec _ _ _; exact ⟨vec, rfl, rfl, by simp⟩
  | cons x xs ih =>
    intro vec hc hslots hN
    simp only [List.length_cons] at hN
    obtain ⟨hle, hobj, hgrow, hstep⟩ := growth_step hc (by omega) hfit
    obtain ⟨w, hshift, hsz, hcap, hsl, h0, hmove⟩ :=
      sl_vec_shift_spec vec x hle (by omega) hobj hgrow
    obtain ⟨vec', hrun, hsz', hcont⟩ := ih w (by rw [hcap, hsz, hstep]) (by rw [hsl, hcap, hslots])
      (by omega)
    refine ⟨vec', by simp [shift_all, hshift, hrun], by simp [hsz', hsz]; omega, ?_⟩
    rw [hcont, contents_cons vec w hsz hmove, h0]
    simp

/-- C3, as stated, fails where the growth wraps: the full text of `2 ^ 63`
characters has `size ≤ capacity` and a block of `capacity` slots; growing it
leaves capacity `1` and a block of one slot, and moving the `2 ^ 63` elements
one slot to the right runs outside that block. -/
theorem shift_wrap_counterexample :
    wide_text.size ≤ wide_text.capacity ∧ wide_text.capacity ≤ wide_text.data.slots ∧
    wide_text.capacity * CType.sizeof char ≤ SIZE_MAX ∧
    (sl_vec_grow true wide_text).capacity = 1 ∧
    (sl_vec_grow true wide_text).data.slots = 1 ∧
    ¬ ∃ vec', sl_vec_shift true wide_text 7 = some vec' := by
  refine ⟨by decide, by decide, by decide, by decide, by decide, ?_⟩
  rintro ⟨vec', h⟩
  have : (sl_vec_shift true wide_text 7).isSome = false := by decide
  rw [h] at this
  exact absurd this (by simp)

/-- C3, amended.  For every sequence with `size ≤ capacity` whose block holds
`capacity` slots of at most `SIZE_MAX` bytes in all, and for which a growth
(needed when `size = capacity`) does not wrap `size_t`, `sl_vec_shift` with a
succeeding reallocation returns a sequence: it grew first exactly when
`size = capacity`, every old element sits one slot to the right of where it
was, the value is at index 0, `size` is one larger, and the logical contents
are the value followed by the old contents.  Consequently a run of prepends of
`x1, ..., xn` from the empty sequence that stays within `size_t` yields
`xn, ..., x1`. -/
theorem shift_prepends {α : Type} [CType α] :
    (∀ (vec : sl_vec α) (v : α), vec.size ≤ vec.capacity → vec.capacity ≤ vec.data.slots →
      vec.capacity * CType.sizeof α ≤ SIZE_MAX →
      (vec.size = vec.capacity → (vec.capacity * 2 + 1) * CType.sizeof α ≤ SIZE_MAX) →
      ∃ vec', sl_vec_shift true vec v = some vec' ∧
        vec'.capacity =
          (if vec.size ≥ vec.capacity then vec.capacity * 2 + 1 else vec.capacity) ∧
        (∀ i, i < vec.size → vec'.data.mem (i + 1) = vec.data.mem i) ∧
        vec'.data.mem 0 = some v ∧
        vec'.size = vec.size + 1 ∧
        vec'.contents = some v :: vec.contents) ∧
    (∀ (xs : List α) (K : Nat), xs.length ≤ 2 ^ K - 1 →
      (2 ^ K - 1) * CType.sizeof α ≤ SIZE_MAX →
      ∃ vec', shift_all true sl_vec.zero xs = some vec' ∧
        vec'.size = xs.length ∧ vec'.contents = xs.reverse.map some) := by
  constructor
  · intro vec v hsize hbuf hcap hfit
    obtain ⟨vec', hshift, hsz, hc, _, h0, hmove⟩ := sl_vec_shift_spec vec v hsize hbuf hcap hfit
    refine ⟨vec', hshift, ?_, hmove, h0, hsz, ?_⟩
    · rw [hc]
      by_cases hg : vec.size = vec.capacity
      · rw [if_pos hg, if_pos (by omega)]
      · rw [if_neg hg, if_neg (by omega)]
    · rw [contents_cons vec vec' hsz hmove, h0]
  · intro xs K hK hfit
    obtain ⟨vec', hrun, hsz, hcont⟩ := shift_all_run K hfit xs sl_vec.zero
      (by simp [sl_vec.zero]) rfl (by simpa [sl_vec.zero] using hK)
    exact ⟨vec', hrun, by simpa [sl_vec.zero] using hsz, by simpa [sl_vec.contents, sl_vec.zero] using hcont⟩

/-- Prepending `!` to the text `hi` (no growth), and prepending 1, 2, 3 to the
empty sequence. -/
theorem shift_prepends_witness :
    (sample_text.size ≤ sample_text.capacity ∧
      sample_text.capacity ≤ sample_text.data.slots ∧
      (sl_vec_shift true sample_text 33).map sl_vec.contents =
        some [some 33, some 104, some 105]) ∧
    (∃ vec', sl_vec_shift true sample_text 33 = some vec' ∧
        vec'.capacity =
          (if sample_text.size ≥ sample_text.capacity then sample_text.capacity * 2 + 1
            else sample_text.capacity) ∧
        (∀ i, i < sample_text.size → vec'.data.mem (i + 1) = sample_text.data.mem i) ∧
        vec'.data.mem 0 = some 33 ∧
        vec'.size = sample_text.size + 1 ∧
        vec'.contents = some 33 :: sample_text.contents) ∧
    (∃ vec', shift_all true sl_vec.zero ([1, 2, 3] : List char) = some vec' ∧
        vec'.size = ([1, 2, 3] : List char).length ∧
        vec'.contents = ([1, 2, 3] : List char).reverse.map some) :=
  ⟨⟨by decide, by decide, by decide⟩,
    shift_prepends.1 sample_text 33 (by decide) (by decide) (by decide) (by decide),
    shift_prepends.2 [1, 2, 3] 2 (by decide) (by decide)⟩

/-! ## Remove last -/

/-- The fields of the structure after `sl_vec_pop`. -/
theorem sl_vec_pop_fields {α : Type} (vec : sl_vec α) :
    (sl_vec_pop vec).size ≤ vec.size ∧ (sl_vec_pop vec).size = vec.size - 1 ∧
      (sl_vec_pop vec).capacity = vec.capacity ∧ (sl_vec_pop vec).data = vec.data := by
  unfold sl_vec_pop
  split
  · exact ⟨Nat.sub_le _ _, rfl, rfl, rfl⟩
  · exact ⟨le_refl _, by omega, rfl, rfl⟩

/-- C4. `sl_vec_pop` decreases `size` by exactly one when `size > 0` and
returns the structure as it was when `size = 0`; in both cases `capacity` is
unchanged and so is the block: every slot, the removed one included, keeps its
value. -/
theorem pop_removes_last {α : Type} (vec : sl_vec α) :
    (if vec.size > 0 then (sl_vec_pop vec).size + 1 = vec.size
      else sl_vec_pop vec = vec ∧ (sl_vec_pop vec).size = 0) ∧
    (sl_vec_pop vec).capacity = vec.capacity ∧
    (sl_vec_pop vec).data = vec.data ∧
    ∀ i, (sl_vec_pop vec).data.mem i = vec.data.mem i := by
  by_cases h : vec.size > 0
  · have hp : sl_vec_pop vec = { vec with size := vec.size - 1 } := by
      unfold sl_vec_pop
      rw [if_pos h]
    rw [hp, if_pos h]
    exact ⟨Nat.sub_add_cancel h, rfl, rfl, fun _ => rfl⟩
  · have hp : sl_vec_pop vec = vec := by
      unfold sl_vec_pop
      rw [if_neg h]
    rw [hp, if_neg h]
    exact ⟨⟨rfl, by omega⟩, rfl, rfl, fun _ => rfl⟩

/-! ## The invariant `size ≤ capacity` -/

theorem sl_vec_grow_size {α : Type} [CType α] (ok : Bool) (vec : sl_vec α) :
    (sl_vec_grow ok vec).size = vec.size := by
  unfold sl_vec_grow
  dsimp only
  split <;> rfl

theorem sl_vec_grow_capacity {α : Type} [CType α] (ok : Bool) (vec : sl_vec α) :
    (sl_vec_grow ok vec).capacity = size_t (vec.capacity * 2 + 1) := by
  unfold sl_vec_grow
  dsimp only
  split <;> rfl

/-- Size and capacity after any `sl_vec_push` that returns. -/
theorem sl_vec_push_fields {α : Type} [CType α] (ok : Bool) (vec vec' : sl_vec α) (v : α)
    (h : sl_vec_push ok vec v = some vec') :
    vec'.size = size_t (vec.size + 1) ∧
      vec'.capacity =
        (if vec.size ≥ vec.capacity then size_t (vec.capacity * 2 + 1) else vec.capacity) := by
  unfold sl_vec_push at h
  simp only [Option.map_eq_some'] at h
  obtain ⟨d, _, rfl⟩ := h
  by_cases hg : vec.size ≥ vec.capacity
  · simp only [if_pos hg, sl_vec_grow_size, sl_vec_grow_capacity, and_self]
  · simp only [if_neg hg, and_self]

/-- Size and capacity after any `sl_vec_shift` that returns. -/
theorem sl_vec_shift_fields {α : Type} [CType α] (ok : Bool) (vec vec' : sl_vec α) (v : α)
    (h : sl_vec_shift ok vec v = some vec') :
    vec'.size = size_t (vec.size + 1) ∧
      vec'.capacity =
        (if vec.size ≥ vec.capacity then size_t (vec.capacity * 2 + 1) else vec.capacity) := by
  unfold sl_vec_shift at h
  simp only [Option.bind_eq_some, Option.map_eq_some'] at h
  obtain ⟨d, _, d', _, rfl⟩ := h
  by_cases hg : vec.size ≥ vec.capacity
  · simp only [if_pos hg, sl_vec_grow_size, sl_vec_grow_capacity, and_self]
  · simp only [if_neg hg, and_self]

/-- Size and capacity after any `sl_c_str` that returns. -/
theorem sl_c_str_fields {α : Type} [CType α] [Zero α] (ok : Bool) (str str' : sl_vec α)
    (h : sl_c_str ok str = some str') :
    str'.size = size_t (size_t (str.size + 1) + SIZE_MAX) ∧
      str'.capacity =
        (if str.size ≥ str.capacity then size_t (str.capacity * 2 + 1) else str.capacity) := by
  unfold sl_c_str at h
  simp only [Option.map_eq_some'] at h
  obtain ⟨w, hw, rfl⟩ := h
  obtain ⟨h1, h2⟩ := sl_vec_push_fields ok str w 0 hw
  exact ⟨by simp only [h1], h2⟩

theorem size_t_dec_succ (a : Nat) : size_t (size_t (a + 1) + SIZE_MAX) ≤ a := by
  unfold size_t SIZE_MAX
  omega

theorem size_t_dec_succ_eq {a : Nat} (h : a + 1 ≤ SIZE_MAX) :
    size_t (size_t (a + 1) + SIZE_MAX) = a := by
  unfold size_t SIZE_MAX at *
  omega

theorem fits_grow {α : Type} [CType α] {op : VecOp α} {vec : sl_vec α}
    (hfits : op.fits vec = true) (hg : op.grows vec = true) :
    (vec.capacity * 2 + 1) * CType.sizeof α ≤ SIZE_MAX := by
  simpa [VecOp.fits, hg] using hfits

/-- One statement that returns keeps `size ≤ capacity`, provided it does not
wrap a `size_t`. -/
theorem apply_size_le_capacity {α : Type} [CType α] [Zero α] (op : VecOp α)
    (vec vec' : sl_vec α) (hinv : vec.size ≤ vec.capacity) (hfits : op.fits vec = true)
    (h : op.apply vec = some vec') : vec'.size ≤ vec'.capacity := by
  have key : ∀ s', s' ≤ vec.size + 1 → op.grows vec = decide (vec.size ≥ vec.capacity) →
      s' ≤ (if vec.size ≥ vec.capacity then size_t (vec.capacity * 2 + 1) else vec.capacity) := by
    intro s' hs' hgr
    by_cases hg : vec.size ≥ vec.capacity
    · have h1 := fits_grow hfits (by rw [hgr]; exact decide_eq_true hg)
      have h2 : vec.capacity * 2 + 1 ≤ SIZE_MAX := le_trans (le_mul_sizeof α _) h1
      rw [if_pos hg, size_t_of_le h2]
      omega
    · rw [if_neg hg]
      omega
  cases op with
  | push ok v =>
    obtain ⟨h1, h2⟩ := sl_vec_push_fields ok vec vec' v h
    rw [h1, h2]
    exact key _ (size_t_le _) rfl
  | shift ok v =>
    obtain ⟨h1, h2⟩ := sl_vec_shift_fields ok vec vec' v h
    rw [h1, h2]
    exact key _ (size_t_le _) rfl
  | pop =>
    simp only [VecOp.apply, Option.some.injEq] at h
    subst h
    unfold sl_vec_pop
    split
    · show vec.size - 1 ≤ vec.capacity
      omega
    · exact hinv
  | c_str ok =>
    obtain ⟨h1, h2⟩ := sl_c_str_fields ok vec vec' h
    rw [h1, h2]
    exact key _ (le_trans (size_t_dec_succ _) (Nat.le_succ _)) rfl

/-- A program whose statements return keeps `size ≤ capacity`. -/
theorem run_size_le_capacity {α : Type} [CType α] [Zero α] (ops : List (VecOp α)) :
    ∀ vec vec' : sl_vec α, vec.size ≤ vec.capacity → run_fits vec ops = true →
      run_ops vec ops = some vec' → vec'.size ≤ vec'.capacity := by
  induction ops with
  | nil =>
    intro vec vec' hinv _ h
    simp only [run_ops, Option.some.injEq] at h
    subst h
    exact hinv
  | cons op ops ih =>
    intro vec vec' hinv hfits h
    simp only [run_fits, Bool.and_eq_true] at hfits
    simp only [run_ops, Option.bind_eq_some] at h
    obtain ⟨w, hw, hrun⟩ := h
    have hf := hfits.2
    rw [hw] at hf
    exact ih w vec' (apply_size_le_capacity op vec w hinv hfits.1 hw) hf hrun

/-- What a successful, non-wrapping `sl_c_str` leaves behind. -/
theorem sl_c_str_spec {α : Type} [CType α] [Zero α] (str : sl_vec α)
    (hsize : str.size ≤ str.capacity) (hbuf : str.capacity ≤ str.data.slots)
    (hcap : str.capacity ≤ SIZE_MAX)
    (hfit : str.size = str.capacity → (str.capacity * 2 + 1) * CType.sizeof α ≤ SIZE_MAX) :
    ∃ str', sl_c_str true str = some str' ∧
      str'.size = str.size ∧
      str'.capacity = (if str.size = str.capacity then str.capacity * 2 + 1 else str.capacity) ∧
      str'.data.slots =
        (if str.size = str.capacity then str.capacity * 2 + 1 else str.data.slots) ∧
      str'.data.mem str.size = some 0 ∧
      ∀ i, i < str.capacity → i ≠ str.size → str'.data.mem i = str.data.mem i := by
  obtain ⟨w, hpush, hsz, hc, hsl, hv, hframe⟩ := sl_vec_push_spec str 0 hsize hbuf hcap hfit
  have hs : str.size + 1 ≤ SIZE_MAX := by
    by_cases hg : str.size = str.capacity
    · have := le_trans (le_mul_sizeof α _) (hfit hg)
      omega
    · omega
  refine ⟨{ w with size := size_t (w.size + SIZE_MAX) }, ?_, ?_, hc, hsl, hv, hframe⟩
  · simp only [sl_c_str, hpush, Option.map_some']
  · show size_t (w.size + SIZE_MAX) = str.size
    rw [hsz]
    have := size_t_dec_succ_eq hs
    rwa [size_t_of_le hs] at this

/-- A well-formed sequence stays well-formed under a statement that does not
wrap and whose reallocation succeeds, and the statement returns. -/
theorem apply_valid {α : Type} [CType α] [Zero α] (op : VecOp α) (vec : sl_vec α)
    (hv : vec.valid) (hfits : op.fits vec = true) (hok : op.allocates = true) :
    ∃ vec', op.apply vec = some vec' ∧ vec'.valid := by
  obtain ⟨hsize, hbuf, hobj⟩ := hv
  have hcap : vec.capacity ≤ SIZE_MAX := le_trans (le_mul_sizeof α _) hobj
  have hfit : op.grows vec = decide (vec.size ≥ vec.capacity) → vec.size = vec.capacity →
      (vec.capacity * 2 + 1) * CType.sizeof α ≤ SIZE_MAX := by
    intro hgr hg
    exact fits_grow hfits (by rw [hgr]; exact decide_eq_true (by omega))
  have close : ∀ vec' : sl_vec α, vec'.size ≤ vec.size + 1 →
      (vec.size = vec.capacity → vec'.size ≤ vec.size + 1 ∧
        (vec.capacity * 2 + 1) * CType.sizeof α ≤ SIZE_MAX) →
      vec'.capacity = (if vec.size = vec.capacity then vec.capacity * 2 + 1 else vec.capacity) →
      vec'.data.slots =
        (if vec.size = vec.capacity then vec.capacity * 2 + 1 else vec.data.slots) →
      vec'.valid := by
    intro vec' hs hg hc hsl
    by_cases hgc : vec.size = vec.capacity
    · rw [if_pos hgc] at hc hsl
      refine ⟨by omega, by omega, ?_⟩
      rw [hc]
      exact (hg hgc).2
    · rw [if_neg hgc] at hc hsl
      refine ⟨by omega, by omega, ?_⟩
      rw [hc]
      exact hobj
  cases op with
  | push ok v =>
    simp only [VecOp.allocates] at hok
    subst hok
    obtain ⟨w, hpush, hsz, hc, hsl, _, _⟩ := sl_vec_push_spec vec v hsize hbuf hcap (hfit rfl)
    exact ⟨w, hpush, close w (by omega) (fun hg => ⟨by omega, hfit rfl hg⟩) hc hsl⟩
  | shift ok v =>
    simp only [VecOp.allocates] at hok
    subst hok
    obtain ⟨w, hshift, hsz, hc, hsl, _, _⟩ := sl_vec_shift_spec vec v hsize hbuf hobj (hfit rfl)
    exact ⟨w, hshift, close w (by omega) (fun hg => ⟨by omega, hfit rfl hg⟩) hc hsl⟩
  | pop =>
    refine ⟨sl_vec_pop vec, rfl, ?_⟩
    obtain ⟨h1, _, h3, h4⟩ := sl_vec_pop_fields vec
    refine ⟨?_, ?_, ?_⟩
    · rw [h3]; omega
    · rw [h3, h4]; exact hbuf
    · rw [h3]; exact hobj
  | c_str ok =>
    simp only [VecOp.allocates] at hok
    subst hok
    obtain ⟨w, hstr, hsz, hc, hsl, _, _⟩ := sl_c_str_spec vec hsize hbuf hcap (hfit rfl)
    exact ⟨w, hstr, close w (by omega) (fun hg => ⟨by omega, hfit rfl hg⟩) hc hsl⟩

/-- A program from a well-formed sequence that does not wrap and whose
reallocations succeed returns a well-formed sequence. -/
theorem run_valid {α : Type} [CType α] [Zero α] (ops : List (VecOp α)) :
    ∀ vec : sl_vec α, vec.valid → run_fits vec ops = true →
      (∀ op, op ∈ ops → op.allocates = true) →
      ∃ vec', run_ops vec ops = some vec' ∧ vec'.valid := by
  induction ops with
  | nil => intro vec hv _ _; exact ⟨vec, rfl, hv⟩
  | cons op ops ih =>
    intro vec hv hfits hok
    simp only [run_fits, Bool.and_eq_true] at hfits
    obtain ⟨w, hw, hwv⟩ := apply_valid op vec hv hfits.1 (hok op (List.mem_cons_self _ _))
    have hf := hfits.2
    rw [hw] at hf
    obtain ⟨vec', hrun, hv'⟩ := ih w hwv hf (fun o ho => hok o (List.mem_cons_of_mem _ ho))
    exact ⟨vec', by simp only [run_ops, hw, Option.some_bind, hrun], hv'⟩

/-- C5. Sequence invariant.  `size ≤ capacity` (`0 ≤ size` holds of every
`size_t`) holds in the empty sequence `{0}`; each of `sl_vec_push`,
`sl_vec_shift`, `sl_vec_pop` and `sl_c_str` that returns without wrapping a
`size_t` takes a sequence with `size ≤ capacity` to one with
`size ≤ capacity`; hence every sequence that a program of these statements
reaches from `{0}` without wrapping has `size ≤ capacity`; and such a program
does reach a sequence whenever its reallocations succeed. -/
theorem size_le_capacity_invariant {α : Type} [CType α] [Zero α] :
    (sl_vec.zero : sl_vec α).size ≤ (sl_vec.zero : sl_vec α).capacity ∧
    (∀ (op : VecOp α) (vec vec' : sl_vec α), vec.size ≤ vec.capacity → op.fits vec = true →
      op.apply vec = some vec' → vec'.size ≤ vec'.capacity) ∧
    (∀ (ops : List (VecOp α)) (vec' : sl_vec α), run_fits sl_vec.zero ops = true →
      run_ops sl_vec.zero ops = some vec' → vec'.size ≤ vec'.capacity) ∧
    (∀ ops : List (VecOp α), run_fits sl_vec.zero ops = true →
      (∀ op, op ∈ ops → op.allocates = true) →
      ∃ vec', run_ops sl_vec.zero ops = some vec' ∧ vec'.size ≤ vec'.capacity) := by
  have hz : (sl_vec.zero : sl_vec α).size ≤ (sl_vec.zero : sl_vec α).capacity := le_refl _
  refine ⟨hz, apply_size_le_capacity, ?_, ?_⟩
  · intro ops vec' hfits hrun
    exact run_size_le_capacity ops sl_vec.zero vec' hz hfits hrun
  · intro ops hfits hok
    have hv : (sl_vec.zero : sl_vec α).valid := ⟨hz, le_refl _, by simp [sl_vec.zero]⟩
    obtain ⟨vec', hrun, hv'⟩ := run_valid ops sl_vec.zero hv hfits hok
    exact ⟨vec', hrun, hv'.1⟩

/-- A mixed program on a text: append, prepend, terminate, remove, append. -/
theorem size_le_capacity_invariant_witness :
    run_fits (sl_vec.zero : sl_string)
      [.push true 104, .shift true 105, .c_str true, .pop, .push true 33] = true ∧
    (run_ops (sl_vec.zero : sl_string)
      [.push true 104, .shift true 105, .c_str true, .pop, .push true 33]).map
        (fun vec => (vec.size, vec.capacity)) = some (2, 3) ∧
    ∃ vec', run_ops (sl_vec.zero : sl_string)
        [.push true 104, .shift true 105, .c_str true, .pop, .push true 33] = some vec' ∧
      vec'.size ≤ vec'.capacity :=
  ⟨by decide, by decide,
    size_le_capacity_invariant.2.2.2
      [.push true 104, .shift true 105, .c_str true, .pop, .push true 33] (by decide)
      (by simp [VecOp.allocates])⟩

/-! ## Counted pointer -/

/-- The result of `sl_ptr_release` when the decrement does not overflow. -/
theorem sl_ptr_release_ok (st : PtrState) (h : st.smart_ptr.ref_count ≠ INT_MIN) :
    sl_ptr_release st = .ok
      { smart_ptr := { ptr := st.smart_ptr.ptr, ref_count := st.smart_ptr.ref_count - 1 }
        freed := if st.smart_ptr.ref_count - 1 ≤ 0 then st.freed ++ [st.smart_ptr.ptr]
                 else st.freed } := by
  unfold sl_ptr_release
  rw [if_neg h]
  by_cases hz : st.smart_ptr.ref_count - 1 ≤ 0
  · simp only [hz, if_true]
  · simp only [hz, if_false]

/-- C6, as stated, fails at the top of the counter: with `ref_count = INT_MAX`
(which is `> 0`) and a block that does nothing, the increment of
`sl_ptr_get` overflows the signed counter, so the borrow does not complete. -/
theorem borrow_overflow_counterexample :
    (0 : Int) < (PtrState.mk ⟨5, INT_MAX⟩ []).smart_ptr.ref_count ∧
    count_neutral (fun s => Outcome.ok s) ∧
    sl_ptr_get ⟨⟨5, INT_MAX⟩, []⟩ (fun _ s => .ok s) = .undefined := by
  refine ⟨by decide, fun st => ⟨st, rfl, rfl⟩, by decide⟩

/-- C6, amended.  For a counted pointer with `0 < ref_count < INT_MAX` and
blocks that complete and leave `ref_count` alone, `sl_ptr_get` runs the block
with the count raised by one and then completes with the count it started
from; its closing release frees nothing (the log of `free` calls is the one
the block left).  Consequently any number of such borrows in a row completes
with `ref_count` unchanged. -/
theorem borrow_net_zero (st : PtrState) (scopes : Nat → Nat → PtrState → Outcome PtrState)
    (hpos : 0 < st.smart_ptr.ref_count) (hmax : st.smart_ptr.ref_count < INT_MAX)
    (hneutral : ∀ k raw, count_neutral (scopes k raw)) :
    (∃ mid out,
      scopes 0 st.smart_ptr.ptr
        { st with smart_ptr := { st.smart_ptr with ref_count := st.smart_ptr.ref_count + 1 } }
          = .ok mid ∧
      mid.smart_ptr.ref_count = st.smart_ptr.ref_count + 1 ∧
      sl_ptr_get st (scopes 0) = .ok out ∧
      out.smart_ptr.ref_count = st.smart_ptr.ref_count ∧
      out.freed = mid.freed) ∧
    ∀ n, ∃ out, borrow_n scopes n st = .ok out ∧
      out.smart_ptr.ref_count = st.smart_ptr.ref_count := by
  have one : ∀ (s : PtrState) (k : Nat), 0 < s.smart_ptr.ref_count →
      s.smart_ptr.ref_count < INT_MAX →
      ∃ mid out,
        scopes k s.smart_ptr.ptr
          { s with smart_ptr := { s.smart_ptr with ref_count := s.smart_ptr.ref_count + 1 } }
            = .ok mid ∧
        mid.smart_ptr.ref_count = s.smart_ptr.ref_count + 1 ∧
        sl_ptr_get s (scopes k) = .ok out ∧
        out.smart_ptr.ref_count = s.smart_ptr.ref_count ∧
        out.freed = mid.freed := by
    intro s k hp hm
    obtain ⟨mid, hmid, hcount⟩ := hneutral k s.smart_ptr.ptr
      { s with smart_ptr := { s.smart_ptr with ref_count := s.smart_ptr.ref_count + 1 } }
    have hcount' : mid.smart_ptr.ref_count = s.smart_ptr.ref_count + 1 := hcount
    have hne : mid.smart_ptr.ref_count ≠ INT_MIN := by
      unfold INT_MIN; omega
    have hnz : ¬ mid.smart_ptr.ref_count - 1 ≤ 0 := by omega
    have hget : sl_ptr_get s (scopes k) = sl_ptr_release mid := by
      unfold sl_ptr_get
      rw [if_pos hp, if_neg (ne_of_lt hm)]
      simp only [hmid]
    rw [sl_ptr_release_ok mid hne, if_neg hnz] at hget
    exact ⟨mid, _, hmid, hcount', hget, by show mid.smart_ptr.ref_count - 1 = _; omega, rfl⟩
  refine ⟨one st 0 hpos hmax, ?_⟩
  intro n
  induction n with
  | zero => exact ⟨st, rfl, rfl⟩
  | succ n ih =>
    obtain ⟨s, hs, hc⟩ := ih
    obtain ⟨_, out, _, _, hget, hout, _⟩ := one s n (by rw [hc]; exact hpos) (by rw [hc]; exact hmax)
    refine ⟨out, ?_, by rw [hout, hc]⟩
    simp only [borrow_n, hs, hget]

/-- Three borrows of a pointer with `ref_count = 2`, each block doing nothing. -/
theorem borrow_net_zero_witness :
    ((0 : Int) < 2 ∧ (2 : Int) < INT_MAX ∧
      sl_ptr_get ⟨⟨5, 2⟩, []⟩ (fun _ s => .ok s) = .ok ⟨⟨5, 2⟩, []⟩) ∧
    (∃ mid out,
      (fun (_ _ : Nat) (s : PtrState) => Outcome.ok s) 0 (PtrState.mk ⟨5, 2⟩ []).smart_ptr.ptr
        { (PtrState.mk ⟨5, 2⟩ []) with
          smart_ptr := { (PtrState.mk ⟨5, 2⟩ []).smart_ptr with
            ref_count := (PtrState.mk ⟨5, 2⟩ []).smart_ptr.ref_count + 1 } }
          = .ok mid ∧
      mid.smart_ptr.ref_count = (PtrState.mk ⟨5, 2⟩ []).smart_ptr.ref_count + 1 ∧
      sl_ptr_get ⟨⟨5, 2⟩, []⟩ ((fun (_ _ : Nat) (s : PtrState) => Outcome.ok s) 0) = .ok out ∧
      out.smart_ptr.ref_count = (PtrState.mk ⟨5, 2⟩ []).smart_ptr.ref_count ∧
      out.freed = mid.freed) ∧
    ∀ n, ∃ out, borrow_n (fun _ _ s => Outcome.ok s) n ⟨⟨5, 2⟩, []⟩ = .ok out ∧
      out.smart_ptr.ref_count = (PtrState.mk ⟨5, 2⟩ []).smart_ptr.ref_count :=
  ⟨⟨by decide, by decide, by decide⟩,
    borrow_net_zero ⟨⟨5, 2⟩, []⟩ (fun _ _ s => .ok s) (by decide) (by decide)
      (fun _ _ st => ⟨st, rfl, rfl⟩)⟩

/-- C7, as stated, fails at the bottom of the counter: with
`ref_count = INT_MIN` the decrement of `sl_ptr_release` overflows the signed
counter, so the count is not decreased by one. -/
theorem release_overflow_counterexample :
    sl_ptr_release ⟨⟨5, INT_MIN⟩, [5]⟩ = .undefined ∧
    ¬ ∃ out, sl_ptr_release ⟨⟨5, INT_MIN⟩, [5]⟩ = .ok out ∧
      out.smart_ptr.ref_count = INT_MIN - 1 := by
  refine ⟨by decide, ?_⟩
  rintro ⟨out, h, _⟩
  have hu : sl_ptr_release ⟨⟨5, INT_MIN⟩, [5]⟩ = .undefined := by decide
  rw [hu] at h
  exact Outcome.noConfusion h

/-- C7, amended.  `sl_ptr_make` gives `ref_count = 1`.  For every counted
pointer with `ref_count > INT_MIN`, `sl_ptr_release` completes with the count
decreased by exactly one and the `ptr` field unchanged, and it calls `free` on
`ptr` (once) if and only if the new count is `<= 0`.  So a release right after
`sl_ptr_make` frees the value, and a release from `ref_count >= 2` frees
nothing. -/
theorem release_decrements (st : PtrState) (hmin : INT_MIN < st.smart_ptr.ref_count) :
    (∀ raw, (sl_ptr_make raw).ref_count = 1 ∧ (sl_ptr_make raw).ptr = raw) ∧
    (∃ out, sl_ptr_release st = .ok out ∧
      out.smart_ptr.ref_count = st.smart_ptr.ref_count - 1 ∧
      out.smart_ptr.ptr = st.smart_ptr.ptr ∧
      (out.smart_ptr.ref_count ≤ 0 → out.freed = st.freed ++ [st.smart_ptr.ptr]) ∧
      (¬ out.smart_ptr.ref_count ≤ 0 → out.freed = st.freed) ∧
      (st.smart_ptr.ref_count ≥ 2 → out.freed = st.freed)) ∧
    (∀ raw log, sl_ptr_release ⟨sl_ptr_make raw, log⟩ = .ok ⟨⟨raw, 0⟩, log ++ [raw]⟩) := by
  have hne : st.smart_ptr.ref_count ≠ INT_MIN := ne_of_gt hmin
  refine ⟨fun raw => ⟨rfl, rfl⟩, ⟨_, sl_ptr_release_ok st hne, rfl, rfl, ?_, ?_, ?_⟩, ?_⟩
  · intro h
    exact if_pos h
  · intro h
    exact if_neg h
  · intro h
    have : ¬ st.smart_ptr.ref_count - 1 ≤ 0 := by omega
    exact if_neg this
  · intro raw log
    have h1 : (PtrState.mk (sl_ptr_make raw) log).smart_ptr.ref_count ≠ INT_MIN := by
      show (1 : Int) ≠ INT_MIN
      decide
    rw [sl_ptr_release_ok _ h1]
    rfl

/-- Releasing the one reference of a fresh pointer, and one of two. -/
theorem release_decrements_witness :
    (INT_MIN < (PtrState.mk ⟨5, 2⟩ []).smart_ptr.ref_count ∧
      sl_ptr_release ⟨⟨5, 2⟩, []⟩ = .ok ⟨⟨5, 1⟩, []⟩ ∧
      sl_ptr_release ⟨sl_ptr_make 5, []⟩ = .ok ⟨⟨5, 0⟩, [5]⟩) ∧
    (∀ raw, (sl_ptr_make raw).ref_count = 1 ∧ (sl_ptr_make raw).ptr = raw) ∧
    (∃ out, sl_ptr_release ⟨⟨5, 2⟩, []⟩ = .ok out ∧
      out.smart_ptr.ref_count = (PtrState.mk ⟨5, 2⟩ []).smart_ptr.ref_count - 1 ∧
      out.smart_ptr.ptr = (PtrState.mk ⟨5, 2⟩ []).smart_ptr.ptr ∧
      (out.smart_ptr.ref_count ≤ 0 →
        out.freed = (PtrState.mk ⟨5, 2⟩ []).freed ++ [(PtrState.mk ⟨5, 2⟩ []).smart_ptr.ptr]) ∧
      (¬ out.smart_ptr.ref_count ≤ 0 → out.freed = (PtrState.mk ⟨5, 2⟩ []).freed) ∧
      ((PtrState.mk ⟨5, 2⟩ []).smart_ptr.ref_count ≥ 2 →
        out.freed = (PtrState.mk ⟨5, 2⟩ []).freed)) ∧
    (∀ raw log, sl_ptr_release ⟨sl_ptr_make raw, log⟩ = .ok ⟨⟨raw, 0⟩, log ++ [raw]⟩) :=
  ⟨⟨by decide, by decide, by decide⟩, release_decrements ⟨⟨5, 2⟩, []⟩ (by decide)⟩

/-! ## Use after release -/

theorem contents_same {α : Type} (vec vec' : sl_vec α) (hsz : vec'.size = vec.size)
    (hframe : ∀ i, i < vec.size → vec'.data.mem i = vec.data.mem i) :
    vec'.contents = vec.contents := by
  unfold sl_vec.contents
  rw [hsz]
  apply List.map_congr_left
  intro i hi
  exact hframe i (List.mem_range.1 hi)

/-- C9, as stated, fails where the growth wraps: the full text of `2 ^ 63`
characters has `size ≤ capacity` and a block of `capacity` slots; the push of
the terminator grows to capacity `1` and a block of one slot, and the store of
the terminator at index `2 ^ 63` is outside it. -/
theorem c_str_wrap_counterexample :
    wide_text.size ≤ wide_text.capacity ∧ wide_text.capacity ≤ wide_text.data.slots ∧
    wide_text.size = wide_text.capacity ∧
    (sl_vec_grow true wide_text).capacity = 1 ∧
    (sl_vec_grow true wide_text).data.slots = 1 ∧
    ¬ ∃ str', sl_c_str true wide_text = some str' := by
  refine ⟨by decide, by decide, by decide, by decide, by decide, ?_⟩
  rintro ⟨str', h⟩
  have : (sl_c_str true wide_text).isSome = false := by decide
  rw [h] at this
  exact absurd this (by simp)

/-- C9, amended.  For every text with `size ≤ capacity` whose block holds
`capacity` slots, and for which a growth (needed when `size = capacity`) does
not wrap `size_t`, `sl_c_str` with a succeeding reallocation returns a text
whose `size` is the size before the call, whose slot at index `size` holds
the terminator, and whose characters below `size` are unchanged; the call
grew the block exactly when `size = capacity`, the empty text `{0}`
included. -/
theorem c_str_terminates (str : sl_string)
    (hsize : str.size ≤ str.capacity) (hbuf : str.capacity ≤ str.data.slots)
    (hcap : str.capacity ≤ SIZE_MAX)
    (hfit : str.size = str.capacity → (str.capacity * 2 + 1) * CType.sizeof char ≤ SIZE_MAX) :
    ∃ str', sl_c_str true str = some str' ∧
      str'.data.mem str'.size = some 0 ∧
      str'.size = str.size ∧
      (∀ i, i < str.size → str'.data.mem i = str.data.mem i) ∧
      str'.contents = str.contents ∧
      str'.size < str'.data.slots ∧
      str'.capacity =
        (if str.size = str.capacity then str.capacity * 2 + 1 else str.capacity) := by
  obtain ⟨str', hstr, hsz, hc, hsl, hv, hframe⟩ := sl_c_str_spec str hsize hbuf hcap hfit
  have hfr : ∀ i, i < str.size → str'.data.mem i = str.data.mem i :=
    fun i hi => hframe i (by omega) (by omega)
  refine ⟨str', hstr, by rw [hsz]; exact hv, hsz, hfr, contents_same str str' hsz hfr, ?_, hc⟩
  rw [hsl, hsz]
  by_cases hg : str.size = str.capacity
  · rw [if_pos hg]; omega
  · rw [if_neg hg]; omega

/-- The text `hi` with a free slot (no growth), after the facts for the empty
text (growth from capacity 0). -/
theorem c_str_terminates_witness :
    ((sl_c_str true (sl_vec.zero : sl_string)).map
        (fun s => (s.size, s.capacity, s.data.mem 0)) = some (0, 1, some 0) ∧
      (sl_c_str true sample_text).map
        (fun s => (s.size, s.capacity, s.contents, s.data.mem 2)) =
          some (2, 3, [some 104, some 105], some 0)) ∧
    sample_text.size ≤ sample_text.capacity ∧
    ∃ str', sl_c_str true sample_text = some str' ∧
      str'.data.mem str'.size = some 0 ∧
      str'.size = sample_text.size ∧
      (∀ i, i < sample_text.size → str'.data.mem i = sample_text.data.mem i) ∧
      str'.contents = sample_text.contents ∧
      str'.size < str'.data.slots ∧
      str'.capacity =
        (if sample_text.size = sample_text.capacity then sample_text.capacity * 2 + 1
          else sample_text.capacity) :=
  ⟨⟨by decide, by decide⟩, by decide,
    c_str_terminates sample_text (by decide) (by decide) (by decide) (by decide)⟩

/-! ## Literal round trip -/

theorem strlen_literal (bytes rest : List char) (hnz : ∀ b, b ∈ bytes → b ≠ 0) :
    strlen (bytes ++ 0 :: rest) = some bytes.length := by
  induction bytes with
  | nil => simp [strlen]
  | cons b bs ih =>
    have hb : b ≠ 0 := hnz b (List.mem_cons_self _ _)
    have := ih (fun c hc => hnz c (List.mem_cons_of_mem _ hc))
    rw [List.cons_append]
    unfold strlen
    rw [if_neg hb, this]
    rfl

theorem sizeof_char : CType.sizeof char = 1 := rfl

/-- The loop of `sl_string` from round `i` on, for a literal of `N` non-NUL
bytes followed by the terminator. -/
theorem sl_string_loop_run (bytes : List char) (hnz : ∀ b, b ∈ bytes → b ≠ 0)
    (hN : bytes.length ≤ SIZE_MAX) :
    ∀ (fuel i : Nat) (str : sl_string), i ≤ bytes.length → bytes.length - i < fuel →
      str.size = i → str.capacity = 2 ^ Nat.size i - 1 → str.data.slots = str.capacity →
      (∀ j, j < i → str.data.mem j = bytes.get? j) →
      ∃ str', sl_string_loop true (bytes ++ [0]) fuel i str = some str' ∧
        str'.size = bytes.length ∧ bytes.length ≤ str'.data.slots ∧
        ∀ j, j < bytes.length → str'.data.mem j = bytes.get? j := by
  intro fuel
  induction fuel with
  | zero => intro i str _ hf; omega
  | succ fuel ih =>
    intro i str hi hf hsz hc hsl hmem
    have hlen := strlen_literal bytes [] hnz
    by_cases hlt : i < bytes.length
    · have hget : (bytes ++ [0]).get? i = some (bytes.get ⟨i, hlt⟩) := by
        rw [List.get?_eq_getElem?, List.getElem?_append_left hlt, List.getElem?_eq_getElem hlt]
        rfl
      have hK : (2 ^ 64 - 1) * CType.sizeof char ≤ SIZE_MAX := by decide
      have hi1 : i + 1 ≤ SIZE_MAX := by omega
      have hiK : i + 1 ≤ 2 ^ 64 - 1 := by
        have : (2 : Nat) ^ 64 - 1 = SIZE_MAX := by decide
        omega
      obtain ⟨hle, hobj, hgrow, hstep⟩ := growth_step hc hiK hK
      rw [← hsz] at hle hgrow hstep
      have hcapmax : str.capacity ≤ SIZE_MAX := by
        rw [sizeof_char] at hobj; omega
      obtain ⟨w, hpush, hwsz, hwc, hwsl, hwv, hwframe⟩ :=
        sl_vec_push_spec str (bytes.get ⟨i, hlt⟩) hle (by omega) hcapmax hgrow
      have hw1 : w.capacity = 2 ^ Nat.size (i + 1) - 1 := by
        rw [hwc, hstep, hsz]
      have hw2 : w.data.slots = w.capacity := by
        rw [hwsl, hwc, hsl]
      have hw3 : ∀ j, j < i + 1 → w.data.mem j = bytes.get? j := by
        intro j hj
        by_cases hji : j = i
        · subst hji
          rw [← hsz, hwv, hsz, List.get?_eq_getElem?, List.getElem?_eq_getElem hlt]
          rfl
        · rw [hwframe j (by omega) (by omega)]
          exact hmem j (by omega)
      obtain ⟨str', hrun, hres⟩ := ih (i + 1) w hlt (by omega) (by omega) hw1 hw2 hw3
      refine ⟨str', ?_, hres⟩
      simp only [sl_string_loop, hlen, Option.some_bind, if_pos hlt, hget, hpush,
        size_t_of_le hi1, hrun]
    · have hieq : i = bytes.length := by omega
      have hself : i < 2 ^ Nat.size i := Nat.lt_size_self i
      refine ⟨str, ?_, by omega, by omega, ?_⟩
      · simp only [sl_string_loop, hlen, Option.some_bind, if_neg hlt]
      · intro j hj
        exact hmem j (by omega)

/-- The iteration from offset `name` visits the slots `name, ..., size - 1`. -/
theorem sl_vec_it_loop_run {α : Type} (vec : sl_vec α) (xs : List α) (hsz : vec.size = xs.length)
    (hslots : xs.length ≤ vec.data.slots)
    (hmem : ∀ j, j < xs.length → vec.data.mem j = xs.get? j) :
    ∀ fuel name : Nat, name ≤ xs.length → xs.length - name < fuel →
      sl_vec_it_loop vec fuel name = some (xs.drop name) := by
  intro fuel
  induction fuel with
  | zero => intro name _ hf; omega
  | succ fuel ih =>
    intro name hn hf
    by_cases hlt : name < xs.length
    · have hne : name ≠ sl_vec_end vec := by
        unfold sl_vec_end; omega
      have hread : vec.data.read name = some (xs.get ⟨name, hlt⟩) := by
        unfold Block.read
        rw [if_pos (by omega), hmem name hlt, List.get?_eq_getElem?,
          List.getElem?_eq_getElem hlt]
        rfl
      have hdrop : xs.drop name = xs.get ⟨name, hlt⟩ :: xs.drop (name + 1) :=
        List.drop_eq_getElem_cons hlt
      simp only [sl_vec_it_loop, if_pos hne, hread, Option.some_bind, ih (name + 1) hlt (by omega),
        Option.map_some', hdrop]
    · have heq : ¬ name ≠ sl_vec_end vec := by
        unfold sl_vec_end; omega
      have hnil : xs.drop name = [] := List.drop_eq_nil_of_le (by omega)
      simp only [sl_vec_it_loop, if_neg heq, hnil]

/-- C10. Literal round trip.  For every literal of `N` non-NUL bytes followed
by the terminator (`N` a `size_t`, reallocations succeeding), `sl_string`
returns, given fuel for more than `N` rounds, a text with `size = N`, and the
iteration from `sl_vec_begin` to `sl_vec_end` visits exactly the `N` bytes of
the literal, in order. -/
theorem literal_round_trip (bytes : List char) (hnz : ∀ b, b ∈ bytes → b ≠ 0)
    (hN : bytes.length ≤ SIZE_MAX) (fuel : Nat) (hfuel : bytes.length < fuel) :
    ∃ str, sl_string_of fuel true (bytes ++ [0]) = some str ∧
      str.size = bytes.length ∧
      sl_vec_end str - sl_vec_begin str = bytes.length ∧
      sl_vec_it str = some bytes := by
  obtain ⟨str, hrun, hsz, hslots, hmem⟩ :=
    sl_string_loop_run bytes hnz hN fuel 0 sl_vec.zero (Nat.zero_le _) (by omega) rfl
      (by simp [sl_vec.zero]) rfl (fun j hj => absurd hj (Nat.not_lt_zero j))
  refine ⟨str, hrun, hsz, by simp [sl_vec_end, sl_vec_begin, hsz], ?_⟩
  unfold sl_vec_it sl_vec_begin
  rw [sl_vec_it_loop_run str bytes hsz hslots hmem (str.size + 1) 0 (Nat.zero_le _) (by omega)]
  rfl

/-- The literal `hi!`, and the empty literal. -/
theorem literal_round_trip_witness :
    ((sl_string_of 1 true [0]).bind sl_vec_it = some [] ∧
      (sl_string_of 4 true [104, 105, 33, 0]).map (fun s => (s.size, s.capacity)) =
        some (3, 3)) ∧
    ∃ str, sl_string_of 4 true (([104, 105, 33] : List char) ++ [0]) = some str ∧
      str.size = ([104, 105, 33] : List char).length ∧
      sl_vec_end str - sl_vec_begin str = ([104, 105, 33] : List char).length ∧
      sl_vec_it str = some [104, 105, 33] :=
  ⟨⟨by decide, by decide⟩,
    literal_round_trip [104, 105, 33] (by simp) (by decide) 4 (by decide)⟩

/-! ## Decimal output -/

theorem range_map_get {α : Type} (l : List α) :
    (List.range l.length).map l.get? = l.map some := by
  apply List.ext_getElem
  · simp
  · intro i h1 h2
    simp at h1
    simp [h1]

/-- Copying a literal of non-NUL bytes with `sl_string`: size and contents. -/
theorem sl_string_of_literal (bytes : List char) (hnz : ∀ b, b ∈ bytes → b ≠ 0)
    (hN : bytes.length ≤ SIZE_MAX) (fuel : Nat) (hfuel : bytes.length < fuel) :
    ∃ str, sl_string_of fuel true (bytes ++ [0]) = some str ∧
      str.size = bytes.length ∧ str.contents = bytes.map some := by
  obtain ⟨str, hrun, hsz, _, hmem⟩ :=
    sl_string_loop_run bytes hnz hN fuel 0 sl_vec.zero (Nat.zero_le _) (by omega) rfl
      (by simp [sl_vec.zero]) rfl (fun j hj => absurd hj (Nat.not_lt_zero j))
  refine ⟨str, hrun, hsz, ?_⟩
  unfold sl_vec.contents
  rw [hsz, ← range_map_get]
  apply List.map_congr_left
  intro j hj
  exact hmem j (List.mem_range.1 hj)

/-- The pipeline of `sl_tostring` once the format applies to the argument and
produces non-NUL characters. -/
theorem sl_tostring_of_format (val : CValue) (cs : List char) (fuel : Nat)
    (hfmt : format (sl_fmt_spec val.type) val.promote = some cs)
    (hnz : ∀ b, b ∈ cs → b ≠ 0) (hlen : cs.length ≤ 11) (hfuel : cs.length < fuel) :
    ∃ str, sl_tostring fuel true val = some str ∧ str.size = cs.length ∧
      str.contents = cs.map some := by
  obtain ⟨str, hstr, hsz, hcont⟩ := sl_string_of_literal cs hnz
    (by unfold SIZE_MAX; omega) fuel hfuel
  refine ⟨str, ?_, hsz, hcont⟩
  have hnot : ¬ ((cs.length : Int) ≥ INT_MAX) := by
    unfold INT_MAX; omega
  have htake : cs.take (((cs.length : Int) + 1).toNat - 1) = cs := by
    have : ((cs.length : Int) + 1).toNat - 1 = cs.length := by omega
    rw [this, List.take_length]
  simp only [sl_tostring, snprintf_count, snprintf_into, hfmt, Option.map_some',
    Option.some_bind, if_neg hnot, if_true, htake, hstr]

theorem format_char (c : char) :
    format (sl_fmt_spec (CValue.chr c).type) (CValue.chr c).promote = some [c] := by
  have hb : ((c.val : Int) % 256).toNat % 256 = c.val := by
    have := c.isLt
    omega
  simp only [format, sl_fmt_spec, CValue.type, CValue.promote]
  simp only [String.reduceEq, if_false, if_true]
  congr 2
  exact Fin.ext hb

/-- C12, as stated, fails for the NUL character: formatting `'\0'` fills the
scratch buffer with two NUL bytes, `sl_string` stops at the first, and the
text returned is empty, of size 0 and not 1. -/
theorem tostring_nul_counterexample :
    (sl_tostring 3 true (.chr 0)).map (fun s => (s.size, s.contents)) = some (0, []) ∧
    ¬ ∃ str, sl_tostring 3 true (.chr 0) = some str ∧ str.size = 1 := by
  have h : (sl_tostring 3 true (.chr 0)).map (fun s => (s.size, s.contents)) = some (0, []) := by
    decide
  refine ⟨h, ?_⟩
  rintro ⟨str, hstr, hsz⟩
  rw [hstr] at h
  simp only [Option.map_some', Option.some.injEq, Prod.mk.injEq] at h
  omega

/-- C12, amended.  For every character `c` other than NUL, `sl_tostring(c)`
returns (given fuel for the copy loop, allocations succeeding) a text of size
1 whose single element is `c`; for the NUL character it returns the empty
text, of size 0. -/
theorem tostring_char (c : char) (fuel : Nat) (hfuel : 1 < fuel) :
    ∃ str, sl_tostring fuel true (.chr c) = some str ∧
      str.size = (if c = 0 then 0 else 1) ∧
      str.contents = (if c = 0 then [] else [some c]) := by
  by_cases hc : c = 0
  · subst hc
    rw [if_pos rfl, if_pos rfl]
    refine ⟨sl_vec.zero, ?_, rfl, rfl⟩
    obtain ⟨f, rfl⟩ : ∃ f, fuel = f + 1 := ⟨fuel - 1, by omega⟩
    have hnot : ¬ (((1 : Nat) : Int) ≥ INT_MAX) := by decide
    simp only [sl_tostring, snprintf_count, snprintf_into, format_char, Option.map_some',
      Option.some_bind, List.length_singleton, if_neg hnot, if_true]
    simp [sl_string_of, sl_string_loop, strlen]
  · rw [if_neg hc, if_neg hc]
    obtain ⟨str, hstr, hsz, hcont⟩ := sl_tostring_of_format (.chr c) [c] fuel (format_char c)
      (by intro b hb; rw [List.mem_singleton] at hb; rw [hb]; exact hc) (by simp) (by simpa using hfuel)
    exact ⟨str, hstr, by simpa using hsz, by simpa using hcont⟩

/-- The character `a` gives the text `a`. -/
theorem tostring_char_witness :
    (1 : Nat) < 3 ∧
    ∃ str, sl_tostring 3 true (.chr 97) = some str ∧
      str.size = (if (97 : char) = 0 then 0 else 1) ∧
      str.contents = (if (97 : char) = 0 then [] else [some 97]) :=
  ⟨by decide, tostring_char 97 3 (by decide)⟩

/-! ## Liveness of the wrapped value -/

theorem release_freed_iff_dead (st st' : PtrState) (hinv : freed_iff_dead st)
    (h : sl_ptr_release st = .ok st') : freed_iff_dead st' := by
  by_cases hm : st.smart_ptr.ref_count = INT_MIN
  · unfold sl_ptr_release at h
    rw [if_pos hm] at h
    exact Outcome.noConfusion h
  · rw [sl_ptr_release_ok st hm] at h
    injection h with h
    subst h
    unfold freed_iff_dead at hinv ⊢
    by_cases hz : st.smart_ptr.ref_count - 1 ≤ 0
    · simp only [if_pos hz, List.mem_append, List.mem_singleton, or_true, true_iff]
      exact hz
    · simp only [if_neg hz]
      constructor
      · intro hmem
        have := hinv.1 hmem
        omega
      · intro hle
        exact absurd hle hz

theorem run_freed_iff_dead (prog : PtrStmt) :
    ∀ st st' : PtrState, freed_iff_dead st → prog.run st = .ok st' → freed_iff_dead st' := by
  induction prog with
  | skip =>
    intro st st' hinv h
    simp only [PtrStmt.run] at h
    injection h with h
    rw [← h]
    exact hinv
  | release =>
    intro st st' hinv h
    exact release_freed_iff_dead st st' hinv h
  | get body ih =>
    intro st st' hinv h
    simp only [PtrStmt.run, sl_ptr_get] at h
    by_cases hp : st.smart_ptr.ref_count > 0
    · rw [if_pos hp] at h
      by_cases hm : st.smart_ptr.ref_count = INT_MAX
      · rw [if_pos hm] at h
        exact Outcome.noConfusion h
      · rw [if_neg hm] at h
        have hinv1 : freed_iff_dead
            { st with smart_ptr :=
                { st.smart_ptr with ref_count := st.smart_ptr.ref_count + 1 } } := by
          unfold freed_iff_dead at hinv ⊢
          constructor
          · intro hmem
            have := hinv.1 hmem
            omega
          · intro hle
            have : st.smart_ptr.ref_count + 1 ≤ 0 := hle
            omega
        cases hb : body.run
            { st with smart_ptr :=
                { st.smart_ptr with ref_count := st.smart_ptr.ref_count + 1 } } with
        | ok mid =>
          rw [hb] at h
          exact release_freed_iff_dead mid st' (ih _ mid hinv1 hb) h
        | assertion_failed => rw [hb] at h; exact Outcome.noConfusion h
        | undefined => rw [hb] at h; exact Outcome.noConfusion h
    · rw [if_neg hp] at h
      exact Outcome.noConfusion h
  | seq first second ih1 ih2 =>
    intro st st' hinv h
    simp only [PtrStmt.run] at h
    cases hf : first.run st with
    | ok mid =>
      rw [hf] at h
      exact ih2 mid st' (ih1 st mid hinv hf) h
    | assertion_failed => rw [hf] at h; exact Outcome.noConfusion h
    | undefined => rw [hf] at h; exact Outcome.noConfusion h

theorem release_ptr_same (st st' : PtrState) (h : sl_ptr_release st = .ok st') :
    st'.smart_ptr.ptr = st.smart_ptr.ptr := by
  by_cases hm : st.smart_ptr.ref_count = INT_MIN
  · unfold sl_ptr_release at h
    rw [if_pos hm] at h
    exact Outcome.noConfusion h
  · rw [sl_ptr_release_ok st hm] at h
    injection h with h
    rw [← h]

theorem run_ptr_same (prog : PtrStmt) :
    ∀ st st' : PtrState, prog.run st = .ok st' → st'.smart_ptr.ptr = st.smart_ptr.ptr := by
  induction prog with
  | skip =>
    intro st st' h
    simp only [PtrStmt.run] at h
    injection h with h
    rw [← h]
  | release => exact release_ptr_same
  | get body ih =>
    intro st st' h
    simp only [PtrStmt.run, sl_ptr_get] at h
    by_cases hp : st.smart_ptr.ref_count > 0
    · rw [if_pos hp] at h
      by_cases hm : st.smart_ptr.ref_count = INT_MAX
      · rw [if_pos hm] at h
        exact Outcome.noConfusion h
      · rw [if_neg hm] at h
        cases hb : body.run
            { st with smart_ptr :=
                { st.smart_ptr with ref_count := st.smart_ptr.ref_count + 1 } } with
        | ok mid =>
          rw [hb] at h
          rw [release_ptr_same mid st' h, ih _ mid hb]
        | assertion_failed => rw [hb] at h; exact Outcome.noConfusion h
        | undefined => rw [hb] at h; exact Outcome.noConfusion h
    · rw [if_neg hp] at h
      exact Outcome.noConfusion h
  | seq first second ih1 ih2 =>
    intro st st' h
    simp only [PtrStmt.run] at h
    cases hf : first.run st with
    | ok mid =>
      rw [hf] at h
      rw [ih2 mid st' h, ih1 st mid hf]
    | assertion_failed => rw [hf] at h; exact Outcome.noConfusion h
    | undefined => rw [hf] at h; exact Outcome.noConfusion h

/-- C13. Liveness invariant of the counted pointer.  Start from
`sl_ptr_make(raw)` with nothing freed and run any program of
`sl_ptr_release` and `sl_ptr_get` calls (the blocks of the borrows being such
programs too).  In every state the program reaches, the structure still holds
`raw`, and `raw` has been passed to `free` if and only if `ref_count <= 0`;
equivalently it has not been freed if and only if `ref_count > 0`. -/
theorem liveness_invariant (prog : PtrStmt) (raw : Nat) (st' : PtrState)
    (h : prog.run ⟨sl_ptr_make raw, []⟩ = .ok st') :
    st'.smart_ptr.ptr = raw ∧
    (raw ∈ st'.freed ↔ st'.smart_ptr.ref_count ≤ 0) ∧
    (raw ∉ st'.freed ↔ st'.smart_ptr.ref_count > 0) := by
  have hp : st'.smart_ptr.ptr = raw := run_ptr_same prog _ st' h
  have h0 : freed_iff_dead ⟨sl_ptr_make raw, []⟩ := by
    unfold freed_iff_dead sl_ptr_make
    simp
  have hinv := run_freed_iff_dead prog _ st' h0 h
  unfold freed_iff_dead at hinv
  rw [hp] at hinv
  refine ⟨hp, hinv, ?_⟩
  rw [hinv]
  omega

/-- A borrow, then the release of the only reference, then a second release
of the dead pointer. -/
theorem liveness_invariant_witness :
    (PtrStmt.seq (.get .skip) .release).run ⟨sl_ptr_make 5, []⟩ = .ok ⟨⟨5, 0⟩, [5]⟩ ∧
    (PtrStmt.get (.seq .release .skip)).run ⟨sl_ptr_make 5, []⟩ = .ok ⟨⟨5, 0⟩, [5]⟩ ∧
    ((PtrState.mk ⟨5, -1⟩ [5, 5]).smart_ptr.ptr = 5 ∧
      (5 ∈ (PtrState.mk ⟨5, -1⟩ [5, 5]).freed ↔
        (PtrState.mk ⟨5, -1⟩ [5, 5]).smart_ptr.ref_count ≤ 0) ∧
      (5 ∉ (PtrState.mk ⟨5, -1⟩ [5, 5]).freed ↔
        (PtrState.mk ⟨5, -1⟩ [5, 5]).smart_ptr.ref_count > 0)) :=
  ⟨by decide, by decide,
    liveness_invariant (.seq (.seq (.get .skip) .release) .release) 5 ⟨⟨5, -1⟩, [5, 5]⟩
      (by decide)⟩

/-! ## Validity during a borrow -/

/-- C15, as stated, fails: `sl_c_str` on the text `hi`, which has a free
slot, leaves the capacity at 3; and of two consecutive calls on the empty
text `{0}` the first grows the capacity from 0 to 1 and the second leaves it
at 1. -/
theorem c_str_repeat_counterexample :
    sample_text.capacity = 3 ∧
    (sl_c_str true sample_text).map sl_vec_capacity = some 3 ∧
    (sl_c_str true (sl_vec.zero : sl_string)).map sl_vec_capacity = some 1 ∧
    ((sl_c_str true (sl_vec.zero : sl_string)).bind (sl_c_str true)).map sl_vec_capacity
      = some 1 := by
  refine ⟨by decide, by decide, by decide, by decide⟩

/-- C15, amended.  For every text with `size ≤ capacity` whose block holds
`capacity` slots, with a growth that does not wrap `size_t` and a succeeding
reallocation, `sl_c_str` changes the capacity (to `capacity * 2 + 1`) exactly
when it is entered with `size = capacity`; afterwards the terminator slot is
inside the capacity, so a second consecutive call returns with the same
capacity, the same block size and the same `size`, whatever the allocator
would answer, and stores the terminator at index `size` again. -/
theorem c_str_repeat (str : sl_string) (ok : Bool)
    (hsize : str.size ≤ str.capacity) (hbuf : str.capacity ≤ str.data.slots)
    (hcap : str.capacity ≤ SIZE_MAX)
    (hfit : str.size = str.capacity → (str.capacity * 2 + 1) * CType.sizeof char ≤ SIZE_MAX) :
    ∃ first second, sl_c_str true str = some first ∧ sl_c_str ok first = some second ∧
      first.capacity =
        (if str.size = str.capacity then str.capacity * 2 + 1 else str.capacity) ∧
      (first.capacity > str.capacity ↔ str.size = str.capacity) ∧
      first.size < first.capacity ∧
      second.capacity = first.capacity ∧
      second.data.slots = first.data.slots ∧
      second.size = str.size ∧
      second.data.mem second.size = some 0 := by
  obtain ⟨first, hfirst, hsz, hc, hsl, _, _⟩ := sl_c_str_spec str hsize hbuf hcap hfit
  have hlt : first.size < first.capacity := by
    rw [hsz, hc]
    by_cases hg : str.size = str.capacity
    · rw [if_pos hg]; omega
    · rw [if_neg hg]; omega
  have hbuf1 : first.capacity ≤ first.data.slots := by
    rw [hc, hsl]
    by_cases hg : str.size = str.capacity
    · rw [if_pos hg, if_pos hg]
    · rw [if_neg hg, if_neg hg]; exact hbuf
  have hcap1 : first.capacity ≤ SIZE_MAX := by
    rw [hc]
    by_cases hg : str.size = str.capacity
    · rw [if_pos hg]
      have := hfit hg
      rw [sizeof_char] at this
      omega
    · rw [if_neg hg]; exact hcap
  have hpush := sl_vec_push_room ok first 0 hlt hbuf1 hcap1
  have hs1 : first.size + 1 ≤ SIZE_MAX := by omega
  have hsecond : sl_c_str ok first = some
      { data := { slots := first.data.slots
                  mem := fun j => if j = first.size then some 0 else first.data.mem j }
        size := first.size
        capacity := first.capacity } := by
    simp only [sl_c_str, hpush, Option.map_some']
    have := size_t_dec_succ_eq hs1
    rw [size_t_of_le hs1] at this
    rw [this]
  refine ⟨first, _, hfirst, hsecond, hc, ?_, hlt, rfl, rfl, hsz, ?_⟩
  · rw [hc]
    by_cases hg : str.size = str.capacity
    · rw [if_pos hg]
      exact ⟨fun _ => hg, fun _ => by omega⟩
    · rw [if_neg hg]
      exact ⟨fun h => absurd h (lt_irrefl _), fun h => absurd h hg⟩
  · show (if first.size = first.size then some (0 : char) else first.data.mem first.size) = some 0
    rw [if_pos rfl]

/-- Two calls on the empty text: capacities 1 and 1. -/
theorem c_str_repeat_witness :
    (sl_vec.zero : sl_string).size ≤ (sl_vec.zero : sl_string).capacity ∧
    ∃ first second, sl_c_str true (sl_vec.zero : sl_string) = some first ∧
      sl_c_str false first = some second ∧
      first.capacity =
        (if (sl_vec.zero : sl_string).size = (sl_vec.zero : sl_string).capacity
          then (sl_vec.zero : sl_string).capacity * 2 + 1
          else (sl_vec.zero : sl_string).capacity) ∧
      (first.capacity > (sl_vec.zero : sl_string).capacity ↔
        (sl_vec.zero : sl_string).size = (sl_vec.zero : sl_string).capacity) ∧
      first.size < first.capacity ∧
      second.capacity = first.capacity ∧
      second.data.slots = first.data.slots ∧
      second.size = (sl_vec.zero : sl_string).size ∧
      second.data.mem second.size = some 0 :=
  ⟨by decide, c_str_repeat sl_vec.zero false (by decide) (by decide) (by decide) (by decide)⟩

/-! ## Failing reallocation -/

/-- The structure left by `sl_vec_grow` when `realloc` returns null. -/
theorem sl_vec_grow_failed {α : Type} [CType α] (vec : sl_vec α) :
    sl_vec_grow false vec =
      { data := vec.data, size := vec.size, capacity := size_t (vec.capacity * 2 + 1) } := by
  simp [sl_vec_grow, realloc]

/-- C17, as stated, fails where the growth wraps: for capacity `2 ^ 63` the
grown capacity is `1`, which is not greater; after the growth of the full
text of `2 ^ 63` characters the written index `size` is not below the new
capacity nor below the number of slots, and the store takes the
out-of-bounds branch. -/
theorem growth_positive_counterexample :
    ¬ size_t (wide_text.capacity * 2 + 1) > wide_text.capacity ∧
    wide_text.size ≤ wide_text.capacity ∧ wide_text.capacity ≤ wide_text.data.slots ∧
    ¬ (sl_vec_grow true wide_text).size < (sl_vec_grow true wide_text).capacity ∧
    ¬ (sl_vec_grow true wide_text).size < (sl_vec_grow true wide_text).data.slots ∧
    ((sl_vec_grow true wide_text).data.write (sl_vec_grow true wide_text).size 0).isNone
      = true := by
  refine ⟨by decide, by decide, by decide, by decide, by decide, by decide⟩

/-- C17, amended.  Growth is strictly positive whenever it does not wrap:
`capacity * 2 + 1`, as a `size_t`, is greater than `capacity`, also for
`capacity = 0`.  So for every sequence with `size ≤ capacity` whose block holds
`capacity` slots (at most `SIZE_MAX` bytes in all), with a needed growth that
does not wrap and a succeeding reallocation: after the conditional growth the
written index `size`, and every index `1 .. size` of the range `sl_vec_shift`
moves into, is below the new capacity, which the block holds; and
`sl_vec_push`, `sl_vec_shift` and `sl_c_str` all return a sequence: the
out-of-bounds branch is not taken. -/
theorem writes_in_bounds {α : Type} [CType α] [Zero α] (vec : sl_vec α) (v : α)
    (hsize : vec.size ≤ vec.capacity) (hbuf : vec.capacity ≤ vec.data.slots)
    (hobj : vec.capacity * CType.sizeof α ≤ SIZE_MAX)
    (hfit : vec.size = vec.capacity → (vec.capacity * 2 + 1) * CType.sizeof α ≤ SIZE_MAX) :
    (∀ c, c * 2 + 1 ≤ SIZE_MAX → size_t (c * 2 + 1) > c) ∧
    (if vec.size ≥ vec.capacity then sl_vec_grow true vec else vec).size = vec.size ∧
    vec.size < (if vec.size ≥ vec.capacity then sl_vec_grow true vec else vec).capacity ∧
    (if vec.size ≥ vec.capacity then sl_vec_grow true vec else vec).capacity ≤
      (if vec.size ≥ vec.capacity then sl_vec_grow true vec else vec).data.slots ∧
    (∀ j, 1 ≤ j → j ≤ vec.size →
      j < (if vec.size ≥ vec.capacity then sl_vec_grow true vec else vec).capacity) ∧
    (∃ w, sl_vec_push true vec v = some w) ∧
    (∃ w, sl_vec_shift true vec v = some w) ∧
    (∃ w, sl_c_str true vec = some w) := by
  have hcap : vec.capacity ≤ SIZE_MAX := le_trans (le_mul_sizeof α _) hobj
  have hpre : (if vec.size ≥ vec.capacity then sl_vec_grow true vec else vec).size = vec.size ∧
      vec.size < (if vec.size ≥ vec.capacity then sl_vec_grow true vec else vec).capacity ∧
      (if vec.size ≥ vec.capacity then sl_vec_grow true vec else vec).capacity ≤
        (if vec.size ≥ vec.capacity then sl_vec_grow true vec else vec).data.slots := by
    by_cases hg : vec.size ≥ vec.capacity
    · rw [if_pos hg, sl_vec_grow_ok vec (hfit (by omega))]
      exact ⟨rfl, by show vec.size < vec.capacity * 2 + 1; omega, le_refl _⟩
    · rw [if_neg hg]
      exact ⟨rfl, by omega, hbuf⟩
  obtain ⟨w1, h1, _⟩ := sl_vec_push_spec vec v hsize hbuf hcap hfit
  obtain ⟨w2, h2, _⟩ := sl_vec_shift_spec vec v hsize hbuf hobj hfit
  obtain ⟨w3, h3, _⟩ := sl_c_str_spec vec hsize hbuf hcap hfit
  refine ⟨?_, hpre.1, hpre.2.1, hpre.2.2, ?_, ⟨w1, h1⟩, ⟨w2, h2⟩, ⟨w3, h3⟩⟩
  · intro c hc
    rw [size_t_of_le hc]
    omega
  · intro j _ hj
    exact lt_of_le_of_lt hj hpre.2.1

/-- The text `hi` (free slot) and the facts for the empty text, which grows. -/
theorem writes_in_bounds_witness :
    ((sl_vec_grow true (sl_vec.zero : sl_string)).capacity = 1 ∧
      (sl_vec_grow true (sl_vec.zero : sl_string)).data.slots = 1 ∧
      (sl_vec_shift true (sl_vec.zero : sl_string) 33).isSome = true) ∧
    sample_text.size ≤ sample_text.capacity ∧
    sample_text.capacity ≤ sample_text.data.slots ∧
    (∀ c, c * 2 + 1 ≤ SIZE_MAX → size_t (c * 2 + 1) > c) ∧
    (if sample_text.size ≥ sample_text.capacity then sl_vec_grow true sample_text
      else sample_text).size = sample_text.size ∧
    sample_text.size <
      (if sample_text.size ≥ sample_text.capacity then sl_vec_grow true sample_text
        else sample_text).capacity ∧
    (if sample_text.size ≥ sample_text.capacity then sl_vec_grow true sample_text
      else sample_text).capacity ≤
      (if sample_text.size ≥ sample_text.capacity then sl_vec_grow true sample_text
        else sample_text).data.slots ∧
    (∀ j, 1 ≤ j → j ≤ sample_text.size →
      j < (if sample_text.size ≥ sample_text.capacity then sl_vec_grow true sample_text
        else sample_text).capacity) ∧
    (∃ w, sl_vec_push true sample_text 33 = some w) ∧
    (∃ w, sl_vec_shift true sample_text 33 = some w) ∧
    (∃ w, sl_c_str true sample_text = some w) :=
  ⟨⟨by decide, by decide, by decide⟩, by decide, by decide,
    writes_in_bounds sample_text 33 (by decide) (by decide) (by decide) (by decide)⟩

/-! ## Cost of growth over a run -/

/-- A growth whose byte count wraps leaves a block of at most the old number
of slots. -/
theorem wrapped_slots_le (c sz : Nat) (hsz : 0 < sz) (hobj : c * sz ≤ SIZE_MAX)
    (hwrap : ¬ (c * 2 + 1) * sz ≤ SIZE_MAX) :
    size_t (size_t (c * 2 + 1) * sz) / sz ≤ c := by
  have hexp : (c * 2 + 1) * sz = c * sz * 2 + sz := by ring
  have hexp2 : (c + 1) * sz = c * sz + sz := by ring
  have hc : c ≤ c * sz := Nat.le_mul_of_pos_right c hsz
  have key : size_t (size_t (c * 2 + 1) * sz) < (c + 1) * sz := by
    rw [hexp2]
    unfold size_t SIZE_MAX at *
    by_cases h1 : c * 2 + 1 < 18446744073709551615 + 1
    · rw [Nat.mod_eq_of_lt h1]
      have hge : (c * 2 + 1) * sz ≥ 18446744073709551615 + 1 := by omega
      rw [Nat.mod_eq_sub_mod hge]
      have := Nat.mod_le ((c * 2 + 1) * sz - (18446744073709551615 + 1))
        (18446744073709551615 + 1)
      omega
    · have hge : c * 2 + 1 ≥ 18446744073709551615 + 1 := by omega
      have hlt : c * 2 + 1 - (18446744073709551615 + 1) < 18446744073709551615 + 1 := by
        omega
      rw [Nat.mod_eq_sub_mod hge, Nat.mod_eq_of_lt hlt]
      have h2 : (c * 2 + 1 - (18446744073709551615 + 1)) * sz ≤ c * sz :=
        Nat.mul_le_mul_right _ (by omega)
      have := Nat.mod_le ((c * 2 + 1 - (18446744073709551615 + 1)) * sz)
        (18446744073709551615 + 1)
      omega
  exact Nat.lt_succ_iff.1 ((Nat.div_lt_iff_lt_mul hsz).2 key)

theorem sl_vec_grow_true {α : Type} [CType α] (vec : sl_vec α) :
    (sl_vec_grow true vec).size = vec.size ∧
      (sl_vec_grow true vec).data.slots =
        size_t (size_t (vec.capacity * 2 + 1) * CType.sizeof α) / CType.sizeof α := by
  simp [sl_vec_grow, realloc]

/-- An append to a full sequence with a tight block returns only if the
reallocation succeeded and nothing wrapped. -/
theorem push_full_some {α : Type} [CType α] (ok : Bool) (vec w : sl_vec α) (v : α)
    (hfull : vec.size = vec.capacity) (hslots : vec.data.slots = vec.capacity)
    (hobj : vec.capacity * CType.sizeof α ≤ SIZE_MAX)
    (h : sl_vec_push ok vec v = some w) :
    ok = true ∧ (vec.capacity * 2 + 1) * CType.sizeof α ≤ SIZE_MAX := by
  have hge : vec.size ≥ vec.capacity := by omega
  cases ok with
  | false =>
    exfalso
    have hnot : ¬ vec.size < vec.data.slots := by omega
    simp [sl_vec_push, if_pos hge, sl_vec_grow_failed, Block.write, if_neg hnot] at h
  | true =>
    refine ⟨rfl, ?_⟩
    by_contra hwrap
    have hle := wrapped_slots_le vec.capacity (CType.sizeof α) CType.sizeof_pos hobj hwrap
    obtain ⟨hs, hsl⟩ := sl_vec_grow_true vec
    have hnot : ¬ (sl_vec_grow true vec).size < (sl_vec_grow true vec).data.slots := by
      rw [hs, hsl]
      omega
    simp [sl_vec_push, if_pos hge, Block.write, if_neg hnot] at h

theorem growth_events_append {α : Type} [CType α] (ok : Bool) (xs ys : List α) :
    ∀ vec : sl_vec α, growth_events ok vec (xs ++ ys) =
      growth_events ok vec xs ++
        (match push_all ok vec xs with
          | some w => growth_events ok w ys
          | none => []) := by
  induction xs with
  | nil => intro vec; simp [growth_events, push_all]
  | cons x xs ih =>
    intro vec
    simp only [List.cons_append, growth_events, push_all]
    cases hp : sl_vec_push ok vec x with
    | none => simp
    | some w => simp [ih w, List.append_assoc]

theorem sum_pow_pred (k : Nat) :
    ((List.range k).map (fun j => 2 ^ j - 1)).sum + k + 1 = 2 ^ k := by
  induction k with
  | zero => simp
  | succ k ih =>
    have hpos : 0 < 2 ^ k := Nat.pos_pow_of_pos _ (by decide)
    rw [List.range_succ, List.map_append, List.sum_append, List.map_singleton,
      List.sum_singleton, pow_succ]
    omega

/-- State and growth events after the first `n` appends of a run from `{0}`
that returns. -/
theorem push_all_prefix_of_run {α : Type} [CType α] (ok : Bool) (xs : List α) (w : sl_vec α)
    (hrun : push_all ok sl_vec.zero xs = some w) (n : Nat) (hn : n ≤ xs.length) :
    ∃ vec, push_all ok sl_vec.zero (xs.take n) = some vec ∧ vec.size = n ∧
      vec.capacity = 2 ^ Nat.size n - 1 ∧ vec.data.slots = vec.capacity ∧
      vec.capacity * CType.sizeof α ≤ SIZE_MAX ∧
      growth_events ok sl_vec.zero (xs.take n) =
        (List.range (Nat.size n)).map (fun j => 2 ^ j - 1) := by
  induction n with
  | zero =>
    exact ⟨sl_vec.zero, by simp [push_all], rfl, by simp [sl_vec.zero], rfl,
      by simp [sl_vec.zero], by simp [growth_events]⟩
  | succ n ih =>
    obtain ⟨vec, hpre, hsz, hcap, hslots, hobj, hev⟩ := ih (by omega)
    have hlt : n < xs.length := by omega
    have htake : xs.take (n + 1) = xs.take n ++ [xs.get ⟨n, hlt⟩] := by
      rw [List.take_succ, List.getElem?_eq_getElem hlt]; rfl
    have hrun1 : push_all ok sl_vec.zero (xs.take (n + 1)) =
        sl_vec_push ok vec (xs.get ⟨n, hlt⟩) := by
      rw [htake, push_all_append, hpre]
      simp [push_all]
    have hev1 : growth_events ok sl_vec.zero (xs.take (n + 1)) =
        (List.range (Nat.size n)).map (fun j => 2 ^ j - 1) ++
          (if vec.size ≥ vec.capacity then [vec.size] else []) := by
      rw [htake, growth_events_append, hpre, hev]
      simp only [growth_events]
      cases sl_vec_push ok vec (xs.get ⟨n, hlt⟩) <;> simp
    obtain ⟨m, hm⟩ : ∃ m, sl_vec_push ok vec (xs.get ⟨n, hlt⟩) = some m := by
      have hsplit : xs = xs.take (n + 1) ++ xs.drop (n + 1) := (List.take_append_drop _ _).symm
      rw [hsplit, push_all_append, hrun1] at hrun
      cases hp : sl_vec_push ok vec (xs.get ⟨n, hlt⟩) with
      | none => rw [hp] at hrun; simp at hrun
      | some m => exact ⟨m, rfl⟩
    have hself : n < 2 ^ Nat.size n := Nat.lt_size_self n
    have hcapmax : vec.capacity ≤ SIZE_MAX := le_trans (le_mul_sizeof α _) hobj
    by_cases hg : vec.size = vec.capacity
    · obtain ⟨hok, hfit⟩ := push_full_some ok vec m _ hg hslots hobj hm
      subst hok
      have hsucc := @size_succ_of_eq n (by omega)
      have hnew : vec.capacity * 2 + 1 = 2 ^ Nat.size (n + 1) - 1 := by
        rw [hsucc, pow_succ]; omega
      rw [sl_vec_push_full vec _ hg hfit] at hrun1
      refine ⟨_, hrun1, by simp [hsz], by simpa using hnew, rfl, by simpa using hfit, ?_⟩
      rw [hev1, if_pos (by omega), hsucc, List.range_succ, List.map_append, List.map_singleton]
      congr 2
      omega
    · have hsucc := @size_succ_of_lt n (by omega)
      rw [sl_vec_push_room ok vec _ (by omega) (by omega) hcapmax] at hrun1
      refine ⟨_, hrun1, by simp [hsz], by simp [hsucc, hcap], by simpa using hslots,
        by simpa using hobj, ?_⟩
      rw [hev1, if_neg (by omega), hsucc, List.append_nil]

/-- C18, as stated, fails for the empty run: with `N = 0` appends there is no
growth event, the elements carried over are `0` in all, and `0` is not less
than `2 * 0`. -/
theorem amortized_empty_counterexample :
    (push_all true (sl_vec.zero : sl_string) []).isSome = true ∧
    growth_events true (sl_vec.zero : sl_string) [] = [] ∧
    (growth_events true (sl_vec.zero : sl_string) []).sum = 0 ∧
    ¬ (growth_events true (sl_vec.zero : sl_string) []).sum <
      2 * ([] : List char).length := by
  refine ⟨by decide, by decide, by decide, by decide⟩

/-- C18, amended.  In a run of `N` appends from the empty sequence `{0}` that
returns, the growth events are exactly the appends entered at the sizes
`0, 1, 3, ..., 2 ^ (k - 1) - 1`, where `k` is the least number with
`N ≤ 2 ^ k - 1`; there are `k` of them, with `2 ^ (k - 1) ≤ N` when `N ≥ 1`
(so `k` is at most logarithmic in `N`); the sizes at the growth events add up
to `2 ^ k - 1 - k`, which is `0` for `N = 0` and less than `2 * N` for
`N ≥ 1`. -/
theorem amortized_growth {α : Type} [CType α] (ok : Bool) (xs : List α)
    (hrun : (push_all ok sl_vec.zero xs).isSome = true) :
    ∃ k, (xs.length ≤ 2 ^ k - 1 ∧ ∀ j, xs.length ≤ 2 ^ j - 1 → k ≤ j) ∧
      growth_events ok sl_vec.zero xs = (List.range k).map (fun j => 2 ^ j - 1) ∧
      (growth_events ok sl_vec.zero xs).length = k ∧
      (growth_events ok sl_vec.zero xs).sum = 2 ^ k - 1 - k ∧
      (xs.length = 0 → (growth_events ok sl_vec.zero xs).sum = 0) ∧
      (1 ≤ xs.length → 2 ^ (k - 1) ≤ xs.length ∧
        (growth_events ok sl_vec.zero xs).sum < 2 * xs.length) := by
  obtain ⟨w, hw⟩ := Option.isSome_iff_exists.1 hrun
  obtain ⟨vec, _, _, _, _, _, hev⟩ := push_all_prefix_of_run ok xs w hw xs.length (le_refl _)
  rw [List.take_length] at hev
  have hself : xs.length < 2 ^ Nat.size xs.length := Nat.lt_size_self _
  have hsum := sum_pow_pred (Nat.size xs.length)
  rw [← hev] at hsum
  refine ⟨Nat.size xs.length, ⟨by omega, ?_⟩, hev, by rw [hev]; simp, by omega, ?_, ?_⟩
  · intro j hj
    have hjpos : 0 < 2 ^ j := Nat.pos_pow_of_pos _ (by decide)
    exact Nat.size_le.2 (by omega)
  · intro h0
    rw [hev, h0]
    simp
  · intro h1
    have hk : 0 < Nat.size xs.length := Nat.size_pos.2 (by omega)
    have hlow : 2 ^ (Nat.size xs.length - 1) ≤ xs.length :=
      Nat.lt_size.1 (by omega)
    have hpow : 2 ^ Nat.size xs.length = 2 ^ (Nat.size xs.length - 1) * 2 := by
      rw [← pow_succ]
      congr 1
      omega
    exact ⟨hlow, by omega⟩

/-- Four appends: growth at sizes 0, 1, 3, carrying 0 + 1 + 3 = 4 < 8
elements. -/
theorem amortized_growth_witness :
    (growth_events true (sl_vec.zero : sl_string) [1, 2, 3, 4] = [0, 1, 3] ∧
      (push_all true (sl_vec.zero : sl_string) [1, 2, 3, 4]).isSome = true) ∧
    ∃ k, (([1, 2, 3, 4] : List char).length ≤ 2 ^ k - 1 ∧
        ∀ j, ([1, 2, 3, 4] : List char).length ≤ 2 ^ j - 1 → k ≤ j) ∧
      growth_events true (sl_vec.zero : sl_string) [1, 2, 3, 4] =
        (List.range k).map (fun j => 2 ^ j - 1) ∧
      (growth_events true (sl_vec.zero : sl_string) [1, 2, 3, 4]).length = k ∧
      (growth_events true (sl_vec.zero : sl_string) [1, 2, 3, 4]).sum = 2 ^ k - 1 - k ∧
      (([1, 2, 3, 4] : List char).length = 0 →
        (growth_events true (sl_vec.zero : sl_string) [1, 2, 3, 4]).sum = 0) ∧
      (1 ≤ ([1, 2, 3, 4] : List char).length →
        2 ^ (k - 1) ≤ ([1, 2, 3, 4] : List char).length ∧
        (growth_events true (sl_vec.zero : sl_string) [1, 2, 3, 4]).sum <
          2 * ([1, 2, 3, 4] : List char).length) :=
  ⟨⟨by decide, by decide⟩,
    amortized_growth true [1, 2, 3, 4] (by decide)⟩

/-! ## Shape of the capacity -/

/-- The capacity after any statement that returns without wrapping. -/
theorem apply_capacity {α : Type} [CType α] [Zero α] (op : VecOp α) (vec vec' : sl_vec α)
    (hfits : op.fits vec = true) (h : op.apply vec = some vec') :
    vec'.capacity = (if op.grows vec = true then vec.capacity * 2 + 1 else vec.capacity) := by
  have key : ∀ c', op.grows vec = decide (vec.size ≥ vec.capacity) →
      c' = (if vec.size ≥ vec.capacity then size_t (vec.capacity * 2 + 1) else vec.capacity) →
      c' = (if op.grows vec = true then vec.capacity * 2 + 1 else vec.capacity) := by
    intro c' hgr hc
    by_cases hg : vec.size ≥ vec.capacity
    · have hgt : op.grows vec = true := by rw [hgr]; exact decide_eq_true hg
      have h1 := fits_grow hfits hgt
      have h2 : vec.capacity * 2 + 1 ≤ SIZE_MAX := le_trans (le_mul_sizeof α _) h1
      rw [hc, if_pos hg, if_pos hgt, size_t_of_le h2]
    · have hgf : ¬ op.grows vec = true := by
        rw [hgr]
        simpa using hg
      rw [hc, if_neg hg, if_neg hgf]
  cases op with
  | push ok v => exact key _ rfl (sl_vec_push_fields ok vec vec' v h).2
  | shift ok v => exact key _ rfl (sl_vec_shift_fields ok vec vec' v h).2
  | pop =>
    simp only [VecOp.apply, Option.some.injEq] at h
    subst h
    have hgf : ¬ (VecOp.pop : VecOp α).grows vec = true := by simp [VecOp.grows]
    rw [if_neg hgf]
    exact (sl_vec_pop_fields vec).2.2.1
  | c_str ok => exact key _ rfl (sl_c_str_fields ok vec vec' h).2

/-- A program from a sequence whose capacity is `2 ^ k - 1` ends, when it
returns without wrapping, in a sequence whose capacity has that form. -/
theorem run_capacity_shape {α : Type} [CType α] [Zero α] (ops : List (VecOp α)) :
    ∀ vec vec' : sl_vec α, (∃ k, vec.capacity = 2 ^ k - 1) → run_fits vec ops = true →
      run_ops vec ops = some vec' → ∃ k, vec'.capacity = 2 ^ k - 1 := by
  induction ops with
  | nil =>
    intro vec vec' hk _ h
    simp only [run_ops, Option.some.injEq] at h
    subst h
    exact hk
  | cons op ops ih =>
    intro vec vec' hk hfits h
    simp only [run_fits, Bool.and_eq_true] at hfits
    simp only [run_ops, Option.bind_eq_some] at h
    obtain ⟨w, hw, hrun⟩ := h
    have hf := hfits.2
    rw [hw] at hf
    refine ih w vec' ?_ hf hrun
    obtain ⟨k, hk⟩ := hk
    have hc := apply_capacity op vec w hfits.1 hw
    by_cases hg : op.grows vec = true
    · rw [if_pos hg] at hc
      refine ⟨k + 1, ?_⟩
      have hpos : 0 < 2 ^ k := Nat.pos_pow_of_pos _ (by decide)
      rw [hc, hk, pow_succ]
      omega
    · rw [if_neg hg] at hc
      exact ⟨k, by rw [hc, hk]⟩

/-- C19. Capacity shape under any mix of statements.  A statement
(`sl_vec_push`, `sl_vec_shift`, `sl_vec_pop`, `sl_c_str`) that returns without
wrapping a `size_t`, applied to a sequence with `size ≤ capacity`, never
decreases the capacity, and changes it only when it is not `sl_vec_pop` and
was entered with `size = capacity`, the new capacity being
`capacity * 2 + 1`.  Every sequence a non-wrapping program of these
statements reaches from `{0}` has a capacity of the form `2 ^ k - 1`; and such
a program does reach a sequence whenever its reallocations succeed. -/
theorem capacity_shape {α : Type} [CType α] [Zero α] :
    (∀ (op : VecOp α) (vec vec' : sl_vec α), vec.size ≤ vec.capacity → op.fits vec = true →
      op.apply vec = some vec' →
      vec.capacity ≤ vec'.capacity ∧
        (vec'.capacity ≠ vec.capacity →
          op ≠ VecOp.pop ∧ vec.size = vec.capacity ∧
            vec'.capacity = vec.capacity * 2 + 1)) ∧
    (∀ (ops : List (VecOp α)) (vec' : sl_vec α), run_fits sl_vec.zero ops = true →
      run_ops sl_vec.zero ops = some vec' → ∃ k, vec'.capacity = 2 ^ k - 1) ∧
    (∀ ops : List (VecOp α), run_fits sl_vec.zero ops = true →
      (∀ op, op ∈ ops → op.allocates = true) →
      ∃ vec', run_ops sl_vec.zero ops = some vec' ∧ ∃ k, vec'.capacity = 2 ^ k - 1) := by
  have hz : ∃ k, (sl_vec.zero : sl_vec α).capacity = 2 ^ k - 1 := ⟨0, by simp [sl_vec.zero]⟩
  refine ⟨?_, ?_, ?_⟩
  · intro op vec vec' hinv hfits h
    have hc := apply_capacity op vec vec' hfits h
    by_cases hg : op.grows vec = true
    · rw [if_pos hg] at hc
      refine ⟨by omega, fun _ => ⟨?_, ?_, hc⟩⟩
      · intro hpop
        subst hpop
        simp [VecOp.grows] at hg
      · cases op with
        | pop => simp [VecOp.grows] at hg
        | push ok v =>
          have : vec.size ≥ vec.capacity := by simpa [VecOp.grows] using hg
          omega
        | shift ok v =>
          have : vec.size ≥ vec.capacity := by simpa [VecOp.grows] using hg
          omega
        | c_str ok =>
          have : vec.size ≥ vec.capacity := by simpa [VecOp.grows] using hg
          omega
    · rw [if_neg hg] at hc
      exact ⟨by omega, fun hne => absurd hc hne⟩
  · intro ops vec' hfits hrun
    exact run_capacity_shape ops sl_vec.zero vec' hz hfits hrun
  · intro ops hfits hok
    have hv : (sl_vec.zero : sl_vec α).valid :=
      ⟨le_refl _, le_refl _, by simp [sl_vec.zero]⟩
    obtain ⟨vec', hrun, _⟩ := run_valid ops sl_vec.zero hv hfits hok
    exact ⟨vec', hrun, run_capacity_shape ops sl_vec.zero vec' hz hfits hrun⟩

/-- A mixed program on a text ends with capacity `3 = 2 ^ 2 - 1`. -/
theorem capacity_shape_witness :
    (run_fits (sl_vec.zero : sl_string)
        [.push true 104, .pop, .shift true 105, .c_str true, .push true 33] = true ∧
      (run_ops (sl_vec.zero : sl_string)
        [.push true 104, .pop, .shift true 105, .c_str true, .push true 33]).map
          sl_vec_capacity = some 3) ∧
    ∃ vec', run_ops (sl_vec.zero : sl_string)
        [.push true 104, .pop, .shift true 105, .c_str true, .push true 33] = some vec' ∧
      ∃ k, vec'.capacity = 2 ^ k - 1 :=
  ⟨⟨by decide, by decide⟩,
    capacity_shape.2.2
      [.push true 104, .pop, .shift true 105, .c_str true, .push true 33] (by decide)
      (by simp [VecOp.allocates])⟩

/-! ## Append then remove -/

/-- C20, as stated, fails where the growth wraps: on the full text of
`2 ^ 63` characters `sl_vec_push` is undefined (the store lands outside the
one-slot block the wrapped growth leaves), so there is nothing for
`sl_vec_pop` to restore. -/
theorem push_pop_wrap_counterexample :
    wide_text.size ≤ wide_text.capacity ∧ wide_text.capacity ≤ wide_text.data.slots ∧
    ((sl_vec_push true wide_text 7).map sl_vec_pop).isNone = true ∧
    ¬ ∃ w, sl_vec_push true wide_text 7 = some w ∧ (sl_vec_pop w).size = wide_text.size := by
  refine ⟨by decide, by decide, by decide, ?_⟩
  rintro ⟨w, h, _⟩
  have : (sl_vec_push true wide_text 7).isSome = false := by decide
  rw [h] at this
  exact absurd this (by simp)

/-- C20, amended.  For every sequence with `size ≤ capacity` whose block holds
`capacity` slots, with a needed growth that does not wrap `size_t` and a
succeeding reallocation, `sl_vec_push(v)` followed by `sl_vec_pop` returns a
sequence with the old `size` and the old logical contents; the capacity is
larger than before exactly when the push was entered with `size = capacity`
(it is then `capacity * 2 + 1`) and unchanged otherwise; and `v` is still
stored at index `size`. -/
theorem push_pop_round_trip {α : Type} [CType α] (vec : sl_vec α) (v : α)
    (hsize : vec.size ≤ vec.capacity) (hbuf : vec.capacity ≤ vec.data.slots)
    (hcap : vec.capacity ≤ SIZE_MAX)
    (hfit : vec.size = vec.capacity → (vec.capacity * 2 + 1) * CType.sizeof α ≤ SIZE_MAX) :
    ∃ w, sl_vec_push true vec v = some w ∧
      (sl_vec_pop w).size = vec.size ∧
      (sl_vec_pop w).contents = vec.contents ∧
      (sl_vec_pop w).capacity =
        (if vec.size = vec.capacity then vec.capacity * 2 + 1 else vec.capacity) ∧
      ((sl_vec_pop w).capacity > vec.capacity ↔ vec.size = vec.capacity) ∧
      ((sl_vec_pop w).capacity ≠ vec.capacity → (sl_vec_pop w).capacity > vec.capacity) ∧
      (sl_vec_pop w).data.mem (sl_vec_pop w).size = some v := by
  obtain ⟨w, hpush, hsz, hc, _, hv, hframe⟩ := sl_vec_push_spec vec v hsize hbuf hcap hfit
  obtain ⟨_, hp1, hp2, hp3⟩ := sl_vec_pop_fields w
  have hpsz : (sl_vec_pop w).size = vec.size := by rw [hp1, hsz]; omega
  have hpc : (sl_vec_pop w).capacity =
      (if vec.size = vec.capacity then vec.capacity * 2 + 1 else vec.capacity) := by
    rw [hp2, hc]
  refine ⟨w, hpush, hpsz, ?_, hpc, ?_, ?_, ?_⟩
  · apply contents_same vec (sl_vec_pop w) hpsz
    intro i hi
    rw [hp3]
    exact hframe i (by omega) (by omega)
  · rw [hpc]
    by_cases hg : vec.size = vec.capacity
    · rw [if_pos hg]
      exact ⟨fun _ => hg, fun _ => by omega⟩
    · rw [if_neg hg]
      exact ⟨fun h => absurd h (lt_irrefl _), fun h => absurd h hg⟩
  · rw [hpc]
    by_cases hg : vec.size = vec.capacity
    · rw [if_pos hg]
      intro _
      omega
    · rw [if_neg hg]
      intro h
      exact absurd rfl h
  · rw [hpsz, hp3]
    exact hv

/-- Push then pop on the text `hi` (no growth) and on the empty text
(growth). -/
theorem push_pop_round_trip_witness :
    (((sl_vec_push true sample_text 33).map sl_vec_pop).map
        (fun s => (s.size, s.capacity, s.contents, s.data.mem 2)) =
          some (2, 3, [some 104, some 105], some 33) ∧
      ((sl_vec_push true (sl_vec.zero : sl_string) 33).map sl_vec_pop).map
        (fun s => (s.size, s.capacity, s.contents, s.data.mem 0)) =
          some (0, 1, [], some 33)) ∧
    sample_text.size ≤ sample_text.capacity ∧
    ∃ w, sl_vec_push true sample_text 33 = some w ∧
      (sl_vec_pop w).size = sample_text.size ∧
      (sl_vec_pop w).contents = sample_text.contents ∧
      (sl_vec_pop w).capacity =
        (if sample_text.size = sample_text.capacity then sample_text.capacity * 2 + 1
          else sample_text.capacity) ∧
      ((sl_vec_pop w).capacity > sample_text.capacity ↔
        sample_text.size = sample_text.capacity) ∧
      ((sl_vec_pop w).capacity ≠ sample_text.capacity →
        (sl_vec_pop w).capacity > sample_text.capacity) ∧
      (sl_vec_pop w).data.mem (sl_vec_pop w).size = some 33 :=
  ⟨⟨by decide, by decide⟩, by decide,
    push_pop_round_trip sample_text 33 (by decide) (by decide) (by decide) (by decide)⟩

end Slibs
